import Mathlib

/-!
Verification development for the mobile-vision-app-starter Python repository.

The two files under study are roboflow_inference.py (response normalization
for the Roboflow inference API) and roboflow_search_agent.py (marketplace
search, crawling and extraction).  Python strings are modelled as List Char,
Python dictionaries as ordered association lists, JSON values as an inductive
type, and numeric JSON values as exact rationals.  Fallible Python code
(exceptions) is modelled with Except / Option.
-/

/-! ## Generic character-list utilities mirroring Python string operations -/

/-- Whitespace characters recognised by the Python str.split() with no
argument (space, tab, newline, carriage return, vertical tab, form feed). -/
def pySpace (c : Char) : Bool :=
  c == ' ' || c == '\t' || c == '\n' || c == '\x0d' || c == '\x0b' || c == '\x0c'

/-- Accumulator-based splitter on a character predicate, dropping empty
pieces: the semantics of Python str.split() with no argument, and of
a single-character split followed by filtering out empty strings. -/
def splitPAux (p : Char → Bool) : List Char → List Char → List (List Char)
  | acc, [] => if acc = [] then [] else [acc.reverse]
  | acc, c :: cs =>
    if p c then (if acc = [] then [] else [acc.reverse]) ++ splitPAux p [] cs
    else splitPAux p (c :: acc) cs

def splitP (p : Char → Bool) (s : List Char) : List (List Char) :=
  splitPAux p [] s

/-- Python sep.join, for a single-character separator. -/
def joinSep (sep : Char) : List (List Char) → List Char
  | [] => []
  | [w] => w
  | w :: ws => w ++ sep :: joinSep sep ws

/-- Python str.split(sep) for a single-character separator: keeps empty
pieces and always returns at least one piece. -/
def splitKeepAux (sep : Char) : List Char → List Char → List (List Char)
  | acc, [] => [acc.reverse]
  | acc, c :: cs =>
    if c = sep then acc.reverse :: splitKeepAux sep [] cs
    else splitKeepAux sep (c :: acc) cs

def splitKeep (sep : Char) (s : List Char) : List (List Char) :=
  splitKeepAux sep [] s

/-- Python substring containment (the in operator on strings): nd occurs
contiguously inside s. -/
def isSubl (nd : List Char) : List Char → Bool
  | [] => nd.isEmpty
  | c :: cs => nd.isPrefixOf (c :: cs) || isSubl nd cs

/-- Python str.lower() (ASCII case folding, which is what the crawled pages
and keyword strings use). -/
def lowerl (s : List Char) : List Char := s.map Char.toLower

/-- Python str.split(sep)[-1] for a non-empty separator string: the suffix
of s after the last occurrence of nd, or s itself when nd does not occur. -/
def afterLast (nd : List Char) : List Char → List Char
  | [] => []
  | c :: cs =>
    if isSubl nd cs then afterLast nd cs
    else if nd.isPrefixOf (c :: cs) then (c :: cs).drop nd.length
    else c :: cs

/-- Python int() on a non-empty string of ASCII digits. -/
def natOfDigits (ds : List Char) : Nat :=
  ds.foldl (fun a c => a * 10 + (c.toNat - 48)) 0

/-! ## SearchNavigator link collection (roboflow_search_agent.py lines 684-709)

The crawler walks all anchor hrefs, normalises each href against the site
base URL, takes the suffix after the last occurrence of the host name
(Python split of the href on the host string, last piece), keeps links with
at least two non-empty path segments whose first segment is not reserved,
and deduplicates by the canonical two-segment path in first-seen order. -/

def BASEl : List Char := "https://universe.roboflow.com".toList

def ndl : List Char := "universe.roboflow.com".toList

def ndlRest : List Char := "niverse.roboflow.com".toList

def reservedSegs : List (List Char) :=
  ["search".toList, "browse".toList, "docs".toList, "api".toList]

def slashP (c : Char) : Bool := c == '/'

/-- Python conditional (href if href.startswith("http") else BASE_URL + href). -/
def fullHref (href : List Char) : List Char :=
  if "http".toList.isPrefixOf href then href else BASEl ++ href

/-- Canonical two-segment project path of one discovered href, or none when
the href is skipped (empty href, host absent, fewer than two segments, or a
reserved first segment). -/
def projectPath (href : List Char) : Option (List Char) :=
  if href = [] then none
  else
    if isSubl ndl (fullHref href) then
      match splitP slashP (afterLast ndl (fullHref href)) with
      | s0 :: s1 :: _ =>
        if s0 ∈ reservedSegs then none else some ('/' :: s0 ++ '/' :: s1)
      | _ => none
    else none

/-- First-seen-order deduplication by canonical path, emitting the rebuilt
project URL for each new path. -/
def dedupAux : List (List Char) → List (List Char) → List (List Char)
  | _, [] => []
  | seen, h :: hs =>
    match projectPath h with
    | none => dedupAux seen hs
    | some p =>
      if p ∈ seen then dedupAux seen hs
      else (BASEl ++ p) :: dedupAux (p :: seen) hs

def dedupLinks (hrefs : List (List Char)) : List (List Char) :=
  dedupAux [] hrefs

/-! ## Search query construction (roboflow_search_agent.py lines 593-629) -/

def kwInstSeg : List Char := "instance segmentation".toList

def kwKeyDet : List Char := "keypoint detection".toList

def kwObjDet : List Char := "object detection".toList

def kwImgCls : List Char := "image classification".toList

def kwModel : List Char := "model".toList

/-- Does the lower-cased keyword string already contain a fully formatted
task phrase. -/
def hasTaskPhrase (kl : List Char) : Bool :=
  isSubl kwInstSeg kl || isSubl kwKeyDet kl || isSubl kwObjDet kl || isSubl kwImgCls kl

/-- The optional standalone model qualifier appended by the fallback path. -/
def modelOf (keywords : List Char) : List (List Char) :=
  if kwModel ∈ ((splitP pySpace keywords).take 2).map lowerl then [] else [kwModel]

/-- The at-most-one task phrase appended by the fallback path.  The code only
appends a phrase when the keywords mention neither of the two suppressing
phrases, and it chooses segmentation over detection over classification; no
keypoint phrase is ever produced here. -/
def taskOf (keywords : List Char) : List (List Char) :=
  if isSubl kwInstSeg (lowerl keywords) = false ∧ isSubl kwKeyDet (lowerl keywords) = false then
    if isSubl "segment".toList (lowerl keywords) || isSubl "segmentation".toList (lowerl keywords) then
      [kwInstSeg]
    else if isSubl "detect".toList (lowerl keywords) || isSubl "detection".toList (lowerl keywords) then
      [kwObjDet]
    else if isSubl "classif".toList (lowerl keywords) || isSubl "classification".toList (lowerl keywords) then
      [kwImgCls]
    else []
  else []

/-- Fallback keyword-list construction (lines 609-629): first two words, the
model qualifier when absent, at most one task phrase, capped at five list
entries. -/
def fallbackTerms (keywords : List Char) : List (List Char) :=
  (((splitP pySpace keywords).take 2 ++ modelOf keywords) ++ taskOf keywords).take 5

/-- Search keyword construction: the pass-through branch keeps the first five
words verbatim when the keywords already carry both a task phrase and the
model qualifier; otherwise the fallback list is built and joined. -/
def buildSearchKeywords (keywords : List Char) : List Char :=
  if hasTaskPhrase (lowerl keywords) && isSubl kwModel (lowerl keywords) then
    joinSep ' ' ((splitP pySpace keywords).take 5)
  else
    joinSep ' ' (fallbackTerms keywords)

/-! ## Model identifier derivation (roboflow_search_agent.py lines 510-515) -/

def NAl : List Char := "N/A".toList

/-- Final guard of the identifier construction: the formatted string when
both segments are present, the sentinel otherwise. -/
def mkModelId (workspace project : List Char) : List Char :=
  if workspace ≠ NAl ∧ project ≠ NAl then workspace ++ '/' :: project else NAl

/-- Model identifier workspace slash project, derived from the project URL
alone via the last two pieces of a slash split. -/
def modelIdOfUrl (url : List Char) : List Char :=
  mkModelId
    (if 2 ≤ (splitKeep '/' url).length then
      (splitKeep '/' url).getD ((splitKeep '/' url).length - 2) [] else NAl)
    (if 1 ≤ (splitKeep '/' url).length then
      (splitKeep '/' url).getD ((splitKeep '/' url).length - 1) [] else NAl)

/-- Record assembled by extract_model_details; only the fields needed to
state the claims are carried. -/
structure ModelRecord where
  project_title : List Char
  url : List Char
  author : List Char
  model_identifier : List Char
  api_endpoint : Option (List Char)
  classes : List (List Char)
  class_count : List Char
deriving DecidableEq

/-- Assembly of the final record: the model identifier field is computed
from the base URL only, whatever the other extracted fields are. -/
def assembleRecord (base_url title author : List Char) (api : Option (List Char))
    (classes : List (List Char)) (cc : List Char) : ModelRecord :=
  { project_title := title, url := base_url, author := author,
    model_identifier := modelIdOfUrl base_url, api_endpoint := api,
    classes := classes, class_count := cc }

/-! ## Crawl retry loop (roboflow_search_agent.py lines 557-573)

One crawl attempt opens a fresh page, navigates and extracts; the outcomes
of successive attempts are supplied by an oracle indexed by the 1-based
attempt number (none models an exception, some d a successful extraction).
The model returns the extracted record (if any), the number of navigation
attempts performed (one fresh page is opened and closed per attempt), and
the list of sleep durations taken between attempts. -/

def RETRY_COUNT : Nat := 3

def RETRY_WAIT : Nat := 3

def retryLoop {α : Type} (attempts : Nat → Option α) : Nat → Nat → Option α × Nat × List Nat
  | _, 0 => (none, 0, [])
  | i, n + 1 =>
    match attempts i with
    | some d => (some d, 1, [])
    | none =>
      if n = 0 then (none, 1, [])
      else
        let r := retryLoop attempts (i + 1) n
        (r.1, r.2.1 + 1, RETRY_WAIT :: r.2.2)

def open_model_with_retry {α : Type} (attempts : Nat → Option α) : Option α × Nat × List Nat :=
  retryLoop attempts 1 RETRY_COUNT

/-! ## JSON payloads and the response normalizer (roboflow_inference.py)

JSON values are modelled with exact rationals in place of IEEE floats; the
bounding-box arithmetic of the source is exact on the integral and dyadic
inputs the API produces.  Python dictionaries are insertion-ordered, hence
association lists.  A raised Python exception is an Except.error carrying
the message. -/

inductive Json where
  | null : Json
  | bool (b : Bool) : Json
  | num (q : ℚ) : Json
  | str (s : String) : Json
  | arr (xs : List Json) : Json
  | obj (fields : List (String × Json)) : Json

/-- Bounding box emitted by the spatial branch (lines 214-228): top-left
corner, size, and the preserved raw center coordinates. -/
structure BBox where
  x : ℚ
  y : ℚ
  width : ℚ
  height : ℚ
  center_x : ℚ
  center_y : ℚ

/-- One normalized prediction.  Fields that a branch does not set model the
absence of the corresponding dictionary key.  The kx, ky, kwidth, kheight
fields are the top-level copies of the raw center box that the keypoint
branch adds (lines 245-248). -/
structure Prediction where
  className : Json
  confidence : Json
  score : Option Json := none
  class_id : Option Json := none
  bbox : Option BBox := none
  points : Option Json := none
  mask : Option Json := none
  detection_id : Option Json := none
  keypoints : Option Json := none
  kx : Option ℚ := none
  ky : Option ℚ := none
  kwidth : Option ℚ := none
  kheight : Option ℚ := none

/-- Ordered-dictionary lookup (first matching key). -/
def jlookup (fields : List (String × Json)) (k : String) : Option Json :=
  (fields.find? (fun f => f.1 == k)).map (fun f => f.2)

def hasKey (fields : List (String × Json)) (k : String) : Bool :=
  fields.any (fun f => f.1 == k)

/-- Numeric view of a JSON value: numbers and booleans (Python booleans are
integers) are numeric, everything else is not. -/
def asNum : Json → Option ℚ
  | .num q => some q
  | .bool b => some (if b then 1 else 0)
  | _ => none

/-- Python containment test (k in xs) on a list: element equality against
the string k. -/
def hasStrElem (xs : List Json) (k : String) : Bool :=
  xs.any (fun x => match x with | .str s => s == k | _ => false)

/-- Single classification prediction (lines 142-148 and 193-199). -/
def classPredOfTop (top conf : Json) : Prediction :=
  { className := top, confidence := conf, score := some conf }

/-- Dictionary-keyed classification entries, in dictionary insertion order,
keeping only dictionary-valued entries (lines 154-164). -/
def classFromDict (d : List (String × Json)) : List Prediction :=
  d.filterMap (fun f =>
    match f.2 with
    | .obj pd => some
        { className := .str f.1,
          confidence := (jlookup pd "confidence").getD (.num 0),
          score := some ((jlookup pd "confidence").getD (.num 0)),
          class_id := some ((jlookup pd "class_id").getD .null) }
    | _ => none)

def confKey (p : Prediction) : ℚ := (asNum p.confidence).getD 0

def predLE (a b : Prediction) : Bool := decide (confKey b ≤ confKey a)

/-- Python list.sort(key=confidence, reverse=True): a stable descending
sort.  Comparing a non-numeric confidence raises a TypeError as soon as a
comparison happens, which requires at least two entries.  (Python would
order two plain-string confidences lexicographically; that same-type
non-numeric corner is modelled as the same TypeError.) -/
def sortPreds (l : List Prediction) : Except String (List Prediction) :=
  if 2 ≤ l.length ∧ ∃ p ∈ l, asNum p.confidence = none then
    .error "TypeError: comparison not supported between instances"
  else .ok (l.mergeSort predLE)

/-- Classification entries of a predictions array (lines 174-180). -/
def classFromList (xs : List Json) : List Prediction :=
  xs.filterMap (fun x =>
    match x with
    | .obj pd => some
        { className := (jlookup pd "top").getD ((jlookup pd "class").getD (.str "unknown")),
          confidence := (jlookup pd "confidence").getD (.num 0),
          score := some ((jlookup pd "confidence").getD (.num 0)) }
    | _ => none)

/-- Classification entries of a bare top-level list (lines 186-192). -/
def classFromBareList (xs : List Json) : List Prediction :=
  xs.filterMap (fun x =>
    match x with
    | .obj pd => some
        { className := (jlookup pd "class").getD ((jlookup pd "top").getD (.str "unknown")),
          confidence := (jlookup pd "confidence").getD ((jlookup pd "score").getD (.num 0)),
          score := some ((jlookup pd "confidence").getD ((jlookup pd "score").getD (.num 0))) }
    | _ => none)

/-- Python arithmetic on a value read from JSON: numbers and booleans
coerce, anything else raises a TypeError. -/
def toNumE (j : Json) : Except String ℚ :=
  match asNum j with
  | some q => .ok q
  | none => .error "TypeError: unsupported operand type"

/-- One spatial prediction (lines 203-253): center-to-top-left transform,
raw centers preserved, optional fields passed through, and the keypoint
branch additionally copying the raw box to top level. -/
def spatialOne (pd : List (String × Json)) : Except String Prediction := do
  let cx ← toNumE ((jlookup pd "x").getD (.num 0))
  let cy ← toNumE ((jlookup pd "y").getD (.num 0))
  let w ← toNumE ((jlookup pd "width").getD (.num 0))
  let h ← toNumE ((jlookup pd "height").getD (.num 0))
  let base : Prediction :=
    { className := (jlookup pd "class").getD (.str "unknown"),
      confidence := (jlookup pd "confidence").getD (.num 0),
      bbox := some ⟨cx - w / 2, cy - h / 2, w, h, cx, cy⟩,
      points := jlookup pd "points",
      mask := jlookup pd "mask",
      class_id := jlookup pd "class_id",
      detection_id := jlookup pd "detection_id" }
  match jlookup pd "keypoints" with
  | some (.arr ks) =>
    pure { base with keypoints := some (.arr ks), kx := some cx, ky := some cy,
                     kwidth := some w, kheight := some h }
  | _ => pure base

/-- The spatial loop skips entries that are not dictionaries (lines 205-206). -/
def spatialList : List Json → Except String (List Prediction)
  | [] => .ok []
  | x :: xs =>
    match x with
    | .obj pd => do
      let p ← spatialOne pd
      let rest ← spatialList xs
      pure (p :: rest)
    | _ => spatialList xs

/-- Handling of a classification-shaped predictions array (lines 168-183):
the first entry decides, and a spatial-looking first entry defers to the
spatial block. -/
def classifyArr (xs : List Json) : Except String (List Prediction) :=
  match xs with
  | [] => .ok []
  | first :: _ =>
    match first with
    | .obj fp =>
      if hasKey fp "top" || (hasKey fp "class" && !hasKey fp "x" && !hasKey fp "bbox") then
        .ok (classFromList xs)
      else .ok []
    | _ => .ok []

/-- Classification cascade (lines 142-199), in source order: the top format,
the predictions dictionary, the classification-shaped predictions array, the
bare list, and the class fallback.  The branch conditions are the Python
containment tests (key in result): key lookup on a dictionary, element
equality on a list, substring on a string, and a TypeError on anything
else; result.get raises an AttributeError and result[key] a TypeError on
non-dictionaries, which is where a string or list payload that does pass a
containment test ends up. -/
def classifyPhase : Json → Except String (List Prediction)
  | .null => .error "TypeError: argument is not iterable"
  | .bool _ => .error "TypeError: argument is not iterable"
  | .num _ => .error "TypeError: argument is not iterable"
  | .str s =>
    if isSubl "top".toList s.toList then
      .error "AttributeError: object has no attribute get"
    else if isSubl "predictions".toList s.toList then
      .error "TypeError: indices must be integers"
    else if isSubl "class".toList s.toList then
      .error "AttributeError: object has no attribute get"
    else .ok []
  | .arr xs =>
    if hasStrElem xs "top" then
      .error "AttributeError: object has no attribute get"
    else if hasStrElem xs "predictions" then
      .error "TypeError: indices must be integers"
    else .ok (classFromBareList xs)
  | .obj fields =>
    if hasKey fields "top" then
      .ok [classPredOfTop ((jlookup fields "top").getD (.str "unknown"))
            ((jlookup fields "confidence").getD (.num 0))]
    else if hasKey fields "predictions" then
      match jlookup fields "predictions" with
      | some (.obj d) => sortPreds (classFromDict d)
      | some (.arr xs) => classifyArr xs
      | some _ => .ok []
      | none => .error "KeyError"
    else if hasKey fields "class" then
      .ok [classPredOfTop ((jlookup fields "class").getD (.str "unknown"))
            ((jlookup fields "confidence").getD (.num 0))]
    else .ok []

/-- Spatial block (lines 201-253): fires only when the classification
cascade produced nothing and the predictions value is a list; the leading
containment test and indexing have the same per-type semantics as above. -/
def spatialPhase (result : Json) (preds : List Prediction) : Except String (List Prediction) :=
  match result with
  | .null => .error "TypeError: argument is not iterable"
  | .bool _ => .error "TypeError: argument is not iterable"
  | .num _ => .error "TypeError: argument is not iterable"
  | .str s =>
    if isSubl "predictions".toList s.toList then
      .error "TypeError: indices must be integers"
    else .ok preds
  | .arr xs =>
    if hasStrElem xs "predictions" then
      .error "TypeError: indices must be integers"
    else .ok preds
  | .obj fields =>
    if hasKey fields "predictions" then
      match jlookup fields "predictions" with
      | some (.arr xs) => if preds.isEmpty then spatialList xs else .ok preds
      | some _ => .ok preds
      | none => .error "KeyError"
    else .ok preds

/-- Full response normalization (lines 132-253). -/
def normalizeResp (result : Json) : Except String (List Prediction) := do
  let preds ← classifyPhase result
  spatialPhase result preds

/-! ## run_inference (roboflow_inference.py lines 17-267)

The HTTP layer (requests.post together with the base64 decode feeding it)
is an oracle: it either raises an exception or yields a status code and a
parsed-or-unparsable JSON body.  The surrounding try block of the source
turns any raised exception into an error dictionary, so the model is a
total function into a result record that always carries a success flag. -/

inductive HttpOutcome where
  | raise (msg : String) : HttpOutcome
  | resp (status : Nat) (body : Except String Json) : HttpOutcome

structure RunResult where
  success : Bool
  error : Option String := none
  predictions : Option (List Prediction) := none
  model_id : List Char
  endpoint_type : Option (List Char) := none

structure InferParams where
  confidence : Option ℚ := none
  overlap : Option ℚ := none
  max_detections : Option ℚ := none

def errResult (msg : String) (mid : List Char) : RunResult :=
  { success := false, error := some msg, model_id := mid }

def UNKNOWNl : List Char := "unknown".toList

/-- Python str.replace(pat, empty string): removes every occurrence. -/
def replaceAll (pat : List Char) : Nat → List Char → List Char
  | 0, s => s
  | fuel + 1, s =>
    match s with
    | [] => []
    | c :: cs =>
      if pat ≠ [] ∧ pat.isPrefixOf (c :: cs) then replaceAll pat fuel ((c :: cs).drop pat.length)
      else c :: replaceAll pat fuel cs

def replaceAllWith (pat s : List Char) : List Char := replaceAll pat (s.length + 1) s

/-- First regex match of pat followed by one or more non-ampersand
characters, returning the captured group (re.search of pat=([^&]+)). -/
def searchGroup (pat : List Char) : Nat → List Char → Option (List Char)
  | 0, _ => none
  | fuel + 1, s =>
    if pat.isPrefixOf s ∧ (s.drop pat.length).takeWhile (fun c => c != '&') ≠ [] then
      some ((s.drop pat.length).takeWhile (fun c => c != '&'))
    else
      match s with
      | [] => none
      | _ :: cs => searchGroup pat fuel cs

/-- Serverless URL parsing (lines 23-40): strip query string, strip the
host, split on slashes, require two leading pieces. -/
def parseServerless (modelUrl : List Char) : Except String (List Char × List Char) :=
  match splitKeep '/'
      (replaceAllWith "https://serverless.roboflow.com/".toList
        ((splitKeep '?' modelUrl).headD [])) with
  | name :: version :: _ => .ok (name, version)
  | _ => .error "Invalid serverless URL format. Expected: https://serverless.roboflow.com/project-name/version"

/-- Detect URL parsing (lines 42-72): template form with model= and
version= query parameters, or the direct two-segment form. -/
def parseDetect (modelUrl : List Char) : Except String (List Char × List Char) :=
  if isSubl "?model=".toList modelUrl then
    match searchGroup "model=".toList (modelUrl.length + 1) modelUrl,
          searchGroup "version=".toList (modelUrl.length + 1) modelUrl with
    | some m, some v => .ok (m, v)
    | _, _ => .error "Could not extract model name and version from URL"
  else
    match splitKeep '/' (replaceAllWith "https://detect.roboflow.com/".toList modelUrl) with
    | name :: version :: _ => .ok (name, version)
    | _ => .error "Invalid detect URL format"

/-- Data-URL stripping (lines 82-84): a data prefix without a comma raises
an IndexError inside the try block. -/
def processImage (img : List Char) : Except String (List Char) :=
  if "data:".toList.isPrefixOf img then
    match splitKeep ',' img with
    | _ :: p1 :: _ => .ok p1
    | _ => .error "IndexError: list index out of range"
  else .ok img

/-- Request, response validation and normalization (lines 100-260), after
the model id is known. -/
def finishRequest (mid : List Char) (etype : List Char) (http : HttpOutcome) : RunResult :=
  match http with
  | .raise e => errResult e mid
  | .resp status body =>
    if status ≠ 200 then errResult "API request failed" mid
    else
      match body with
      | .error e => errResult e mid
      | .ok json =>
        match normalizeResp json with
        | .error e => errResult e mid
        | .ok preds =>
          { success := true, predictions := some preds, model_id := mid,
            endpoint_type := some etype }

/-- Full run_inference: URL dispatch, image preparation, request and
normalization, with every exception path folded into an error record. -/
def run_inference (modelUrl : List Char) (apiKey : List Char) (imageB64 : List Char)
    (params : Option InferParams) (http : HttpOutcome) : RunResult :=
  if isSubl "serverless.roboflow.com".toList modelUrl then
    match parseServerless modelUrl with
    | .error e => errResult e UNKNOWNl
    | .ok (name, version) =>
      match processImage imageB64 with
      | .error e => errResult e (name ++ '/' :: version)
      | .ok _ => finishRequest (name ++ '/' :: version) "serverless".toList http
  else if isSubl "detect.roboflow.com".toList modelUrl then
    match parseDetect modelUrl with
    | .error e => errResult e UNKNOWNl
    | .ok (name, version) =>
      match processImage imageB64 with
      | .error e => errResult e (name ++ '/' :: version)
      | .ok _ => finishRequest (name ++ '/' :: version) "detect".toList http
  else
    errResult "Please provide a serverless.roboflow.com or detect.roboflow.com URL" UNKNOWNl

/-! ## Classes extraction (roboflow_search_agent.py lines 466-500) -/

def isLowerAZ (c : Char) : Bool := 'a' ≤ c && c ≤ 'z'

def isUpperAZ (c : Char) : Bool := 'A' ≤ c && c ≤ 'Z'

def isDigit09 (c : Char) : Bool := '0' ≤ c && c ≤ '9'

/-- Regex word character (ASCII fragment of the Python w class, which is
what the crawled page text uses). -/
def wordChar (c : Char) : Bool := isLowerAZ c || isUpperAZ c || isDigit09 c || c == '_'

/-- Characters allowed after the first letter of a class token. -/
def tokChar (c : Char) : Bool := isLowerAZ c || isDigit09 c || c == '_' || c == '-'

/-- Word boundary after a candidate match of length L: the word-character
status changes between the last matched character and what follows (or the
match ends at a word character at end of input). -/
def boundaryAfterOk (tok rest : List Char) : Bool :=
  match tok.getLast?, rest with
  | none, _ => false
  | some lc, [] => wordChar lc
  | some lc, d :: _ => wordChar lc != wordChar d

/-- Greedy-with-backtracking search for the longest accepted match length,
from the greedy run length downwards. -/
def tryLens (s : List Char) : Nat → Option Nat
  | 0 => none
  | l + 1 =>
    if boundaryAfterOk (s.take (l + 1)) (s.drop (l + 1)) then some (l + 1)
    else tryLens s l

/-- Scanner for the token regex (a lowercase letter followed by at most 25
token characters, between word boundaries), returning all non-overlapping
matches left to right, as re.findall does. -/
def scanToks : Nat → Bool → List Char → List (List Char)
  | 0, _, _ => []
  | _, _, [] => []
  | fuel + 1, prevWord, c :: cs =>
    if !prevWord && isLowerAZ c then
      match tryLens (c :: cs) (1 + min (cs.takeWhile tokChar).length 25) with
      | some l =>
        (c :: cs).take l ::
          scanToks fuel (wordChar (((c :: cs).take l).getLastD ' ')) ((c :: cs).drop l)
      | none => scanToks fuel (wordChar c) cs
    else scanToks fuel (wordChar c) cs

def findToks (s : List Char) : List (List Char) := scanToks (s.length + 1) false s

/-- First match of the count declaration regex CLASSES ws* ( digits ) at the
head of s, returning the digit group and the suffix after the match. -/
def matchClassesAt (s : List Char) : Option (List Char × List Char) :=
  if "CLASSES".toList.isPrefixOf s then
    match (s.drop 7).dropWhile pySpace with
    | '(' :: t2 =>
      match t2.takeWhile isDigit09 with
      | [] => none
      | ds =>
        match t2.drop ds.length with
        | ')' :: rest => some (ds, rest)
        | _ => none
    | _ => none
  else none

/-- Left-to-right search for the count declaration (re.search). -/
def findClasses : Nat → List Char → Option (List Char × List Char)
  | 0, _ => none
  | _, [] => none
  | fuel + 1, c :: cs =>
    match matchClassesAt (c :: cs) with
    | some r => some r
    | none => findClasses fuel cs

def findClassesCount (s : List Char) : Option (List Char × List Char) :=
  findClasses (s.length + 1) s

/-- Stoplist of interface words rejected during classes extraction. -/
def uiNoise : List (List Char) :=
  ["try".toList, "this".toList, "model".toList, "drop".toList, "an".toList,
   "image".toList, "or".toList, "browse".toList, "your".toList, "device".toList,
   "description".toList, "for".toList, "project".toList, "has".toList,
   "not".toList, "been".toList, "published".toList, "yet".toList, "cite".toList,
   "license".toList, "by".toList, "updated".toList, "views".toList,
   "downloads".toList, "tags".toList, "classes".toList, "the".toList,
   "and".toList, "to".toList, "a".toList, "of".toList, "in".toList,
   "on".toList, "is".toList, "it".toList, "that".toList, "with".toList]

/-- Accumulating loop of lines 492-496: keep tokens longer than one
character that are neither interface noise nor already collected, and stop
as soon as the declared count is reached. -/
def classesLoop (n : Nat) : List (List Char) → List (List Char) → List (List Char)
  | classes, [] => classes
  | classes, cls :: rest =>
    if 1 < cls.length ∧ cls ∉ uiNoise ∧ cls ∉ classes then
      if n ≤ (classes ++ [cls]).length then classes ++ [cls]
      else classesLoop n (classes ++ [cls]) rest
    else classesLoop n classes rest

/-- Break-free form of the same filter-and-deduplicate loop. -/
def filteredDedup : List (List Char) → List (List Char) → List (List Char)
  | classes, [] => classes
  | classes, cls :: rest =>
    if 1 < cls.length ∧ cls ∉ uiNoise ∧ cls ∉ classes then
      filteredDedup (classes ++ [cls]) rest
    else filteredDedup classes rest

/-- Classes extraction (lines 466-500): find the count declaration, scan the
500-character window after it, tokenize, filter, deduplicate, and truncate
to the smaller of the declared count and ten. -/
def extractClasses (pageText : List Char) : List (List Char) × List Char :=
  match findClassesCount pageText with
  | none => ([], "0".toList)
  | some (ds, rest) =>
    let n := natOfDigits ds
    ((classesLoop n [] (findToks (rest.take 500))).take (min n 10), ds)

/-- A prediction with no spatial field at all: what every classification
branch produces. -/
def isPureClass (p : Prediction) : Prop :=
  p.bbox = none ∧ p.points = none ∧ p.mask = none ∧ p.keypoints = none ∧
  p.detection_id = none ∧ p.kx = none ∧ p.ky = none ∧ p.kwidth = none ∧ p.kheight = none

def c1Payload : Json :=
  Json.obj [("predictions", Json.arr [Json.obj
    [("x", Json.num 100), ("y", Json.num 50), ("width", Json.num 40),
     ("height", Json.num 20), ("class", Json.str "ball"),
     ("confidence", Json.num (4/5))]])]

def c1Prediction : Prediction :=
  { className := Json.str "ball", confidence := Json.num (4/5),
    bbox := some ⟨80, 40, 40, 20, 100, 50⟩ }

/-! ## Theorems -/

/-! ## Lemmas about the splitters and substring search -/

theorem isSubl_iff (nd : List Char) : ∀ s, isSubl nd s = true ↔ nd <:+: s := by
  intro s
  induction s with
  | nil =>
    simp [isSubl, List.isEmpty_iff]
  | cons c cs ih =>
    simp only [isSubl, Bool.or_eq_true, List.isPrefixOf_iff_prefix, ih,
      List.infix_cons_iff]

theorem splitPAux_append_sep (p : Char → Bool) (sep : Char) (hsep : p sep = true)
    (rest : List Char) :
    ∀ (w acc : List Char),
      splitPAux p acc (w ++ sep :: rest) = splitPAux p acc w ++ splitPAux p [] rest := by
  intro w
  induction w with
  | nil => intro acc; by_cases h : acc = [] <;> simp [splitPAux, hsep, h]
  | cons c w' ih =>
    intro acc
    by_cases h : p c
    · simp [splitPAux, h, ih, List.append_assoc]
    · simp [splitPAux, h, ih]

theorem splitP_joinSep (p : Char → Bool) (sep : Char) (hsep : p sep = true) :
    ∀ ws : List (List Char), splitP p (joinSep sep ws) = ws.flatMap (splitP p) := by
  intro ws
  induction ws with
  | nil => simp [joinSep, splitP, splitPAux]
  | cons w ws ih =>
    cases ws with
    | nil => simp [joinSep]
    | cons w' ws' =>
      have hj : joinSep sep (w :: w' :: ws') = w ++ sep :: joinSep sep (w' :: ws') := rfl
      rw [hj]
      unfold splitP
      rw [splitPAux_append_sep p sep hsep]
      have ih' : splitPAux p [] (joinSep sep (w' :: ws')) = (w' :: ws').flatMap (splitP p) := ih
      rw [ih', List.flatMap_cons]
      rfl

theorem splitPAux_pieces (p : Char → Bool) :
    ∀ (s acc : List Char), (∀ c ∈ acc, p c = false) →
      ∀ w ∈ splitPAux p acc s, w ≠ [] ∧ ∀ c ∈ w, p c = false := by
  intro s
  induction s with
  | nil =>
    intro acc hacc w hw
    by_cases h : acc = []
    · simp [splitPAux, h] at hw
    · simp [splitPAux, h] at hw
      subst hw
      refine ⟨by simpa using h, ?_⟩
      intro c hc
      exact hacc c (List.mem_reverse.mp hc)
  | cons c cs ih =>
    intro acc hacc w hw
    by_cases h : p c
    · simp only [splitPAux, h, if_pos, List.mem_append] at hw
      rcases hw with hw | hw
      · by_cases hacc0 : acc = []
        · simp [hacc0] at hw
        · simp [hacc0] at hw
          subst hw
          refine ⟨by simpa using hacc0, ?_⟩
          intro d hd
          exact hacc d (List.mem_reverse.mp hd)
      · exact ih [] (by simp) w hw
    · simp only [splitPAux, h] at hw
      refine ih (c :: acc) ?_ w hw
      intro d hd
      rcases List.mem_cons.mp hd with rfl | hd
      · simpa using h
      · exact hacc d hd

theorem splitP_pieces (p : Char → Bool) (s : List Char) :
    ∀ w ∈ splitP p s, w ≠ [] ∧ ∀ c ∈ w, p c = false :=
  splitPAux_pieces p s [] (by simp)

theorem splitPAux_mem_of_piece (p : Char → Bool) :
    ∀ (s acc : List Char), ∀ w ∈ splitPAux p acc s, w <:+: (acc.reverse ++ s) := by
  intro s
  induction s with
  | nil =>
    intro acc w hw
    by_cases h : acc = []
    · simp [splitPAux, h] at hw
    · simp [splitPAux, h] at hw
      subst hw
      simp
  | cons c cs ih =>
    intro acc w hw
    by_cases h : p c
    · simp only [splitPAux, h, if_pos, List.mem_append] at hw
      rcases hw with hw | hw
      · by_cases hacc0 : acc = []
        · simp [hacc0] at hw
        · simp [hacc0] at hw
          subst hw
          exact ((List.prefix_append acc.reverse (c :: cs))).isInfix
      · have := ih [] w hw
        simp only [List.reverse_nil, List.nil_append] at this
        rcases this with ⟨pre, suf, hps⟩
        exact ⟨acc.reverse ++ c :: pre, suf, by simp [← hps]⟩
    · simp only [splitPAux, h] at hw
      have := ih (c :: acc) w hw
      simpa [List.append_assoc] using this

theorem splitP_mem_of_piece (p : Char → Bool) (s : List Char) :
    ∀ w ∈ splitP p s, w <:+: s := by
  intro w hw
  simpa using splitPAux_mem_of_piece p s [] w hw

theorem splitPAux_no_sep (p : Char → Bool) :
    ∀ (w acc : List Char), (∀ c ∈ w, p c = false) →
      splitPAux p acc w = if acc.reverse ++ w = [] then [] else [acc.reverse ++ w] := by
  intro w
  induction w with
  | nil =>
    intro acc _
    by_cases h : acc = [] <;> simp [splitPAux, h]
  | cons c w' ih =>
    intro acc hw
    have hc : p c = false := hw c (by simp)
    simp only [splitPAux, hc, Bool.false_eq_true, if_false]
    rw [ih (c :: acc) (fun d hd => hw d (by simp [hd]))]
    simp

theorem splitP_single (w : List Char) (p : Char → Bool)
    (hw : ∀ c ∈ w, p c = false) (hne : w ≠ []) : splitP p w = [w] := by
  unfold splitP
  rw [splitPAux_no_sep p w [] hw]
  simp [hne]

theorem splitKeepAux_length (sep : Char) :
    ∀ (s acc : List Char), (splitKeepAux sep acc s).length = s.count sep + 1 := by
  intro s
  induction s with
  | nil => intro acc; simp [splitKeepAux]
  | cons c cs ih =>
    intro acc
    by_cases h : c = sep
    · simp [splitKeepAux, h, ih, List.count_cons]
    · simp [splitKeepAux, h, ih, List.count_cons]

theorem splitKeep_length (sep : Char) (s : List Char) :
    (splitKeep sep s).length = s.count sep + 1 :=
  splitKeepAux_length sep s []

theorem splitKeep_ne_nil (sep : Char) (s : List Char) : splitKeep sep s ≠ [] := by
  have h := splitKeep_length sep s
  intro hc
  rw [hc] at h
  simp at h

theorem splitKeep_two_iff (sep : Char) (s : List Char) :
    2 ≤ (splitKeep sep s).length ↔ sep ∈ s := by
  rw [splitKeep_length]
  constructor
  · intro h
    have : 1 ≤ s.count sep := by omega
    exact List.count_pos_iff.mp this
  · intro h
    have : 1 ≤ s.count sep := List.count_pos_iff.mpr h
    omega

theorem splitKeepAux_no_sep_mem (sep : Char) :
    ∀ (s acc : List Char), (∀ c ∈ acc, c ≠ sep) →
      ∀ w ∈ splitKeepAux sep acc s, ∀ c ∈ w, c ≠ sep := by
  intro s
  induction s with
  | nil =>
    intro acc hacc w hw
    simp [splitKeepAux] at hw
    subst hw
    intro c hc
    exact hacc c (List.mem_reverse.mp hc)
  | cons c cs ih =>
    intro acc hacc w hw
    by_cases h : c = sep
    · simp only [splitKeepAux, h, if_pos] at hw
      rcases List.mem_cons.mp hw with rfl | hw
      · intro d hd
        exact hacc d (List.mem_reverse.mp hd)
      · exact ih [] (by simp) w hw
    · simp only [splitKeepAux, h] at hw
      refine ih (c :: acc) ?_ w hw
      intro d hd
      rcases List.mem_cons.mp hd with rfl | hd
      · exact h
      · exact hacc d hd

theorem splitKeep_no_sep_mem (sep : Char) (s : List Char) :
    ∀ w ∈ splitKeep sep s, ∀ c ∈ w, c ≠ sep :=
  splitKeepAux_no_sep_mem sep s [] (by simp)

/-! ## Lemmas about afterLast (Python split(sep)[-1]) -/

theorem afterLast_skip (nd : List Char) (c : Char) (cs : List Char)
    (h : nd <:+: cs) : afterLast nd (c :: cs) = afterLast nd cs := by
  simp [afterLast, (isSubl_iff nd cs).mpr h]

theorem afterLast_append_occ (nd : List Char) :
    ∀ (x y : List Char), nd <:+: y → afterLast nd (x ++ y) = afterLast nd y := by
  intro x
  induction x with
  | nil => intro y _; rfl
  | cons c x' ih =>
    intro y hy
    have h1 : nd <:+: x' ++ y := hy.trans ⟨x', [], by simp⟩
    calc afterLast nd (c :: (x' ++ y)) = afterLast nd (x' ++ y) := afterLast_skip nd c _ h1
      _ = afterLast nd y := ih y hy

theorem afterLast_head_occurrence (n0 : Char) (nrest p : List Char)
    (h : ¬ ((n0 :: nrest) <:+: nrest ++ p)) :
    afterLast (n0 :: nrest) ((n0 :: nrest) ++ p) = p := by
  have hpre : (n0 :: nrest).isPrefixOf (n0 :: (nrest ++ p)) = true :=
    List.isPrefixOf_iff_prefix.mpr ⟨p, by simp⟩
  have hsub : isSubl (n0 :: nrest) (nrest ++ p) = false := by
    rw [← Bool.not_eq_true, isSubl_iff]
    exact h
  show afterLast (n0 :: nrest) (n0 :: (nrest ++ p)) = p
  unfold afterLast
  rw [hsub]
  simp only [Bool.false_eq_true, if_false, hpre, eq_self_iff_true, if_true,
    List.length_cons, List.drop_succ_cons]
  exact List.drop_left nrest p

theorem afterLast_no_occurrence (nd : List Char) (hne : nd ≠ []) :
    ∀ s, ¬ nd <:+: afterLast nd s := by
  intro s
  induction s with
  | nil =>
    intro h
    exact hne (List.eq_nil_of_infix_nil h)
  | cons c cs ih =>
    by_cases h1 : nd <:+: cs
    · rw [afterLast_skip nd c cs h1]; exact ih
    · by_cases h2 : nd.isPrefixOf (c :: cs)
      · have : afterLast nd (c :: cs) = (c :: cs).drop nd.length := by
          simp [afterLast, h2, (Bool.not_eq_true _).mpr (by rw [← Bool.not_eq_true, isSubl_iff]; exact h1)]
        rw [this]
        intro hc
        apply h1
        have hsuf : (c :: cs).drop nd.length <:+ cs := by
          cases nd with
          | nil => exact absurd rfl hne
          | cons d ds =>
            show (c :: cs).drop (ds.length + 1) <:+ cs
            simpa using List.drop_suffix ds.length cs
        exact hc.trans hsuf.isInfix
      · have : afterLast nd (c :: cs) = c :: cs := by
          simp [afterLast, h2, (Bool.not_eq_true _).mpr (by rw [← Bool.not_eq_true, isSubl_iff]; exact h1)]
        rw [this]
        intro hc
        rcases List.infix_cons_iff.mp hc with hp | hi
        · exact h2 ( List.isPrefixOf_iff_prefix.mpr hp)
        · exact h1 hi

/-- A list whose elements avoid the character sep cannot extend as a
contiguous block across an occurrence of sep. -/
theorem prefix_through_sep (sep : Char) :
    ∀ (a b nd : List Char), sep ∉ nd →
      nd <+: (a ++ sep :: b) → nd <+: a := by
  intro a
  induction a with
  | nil =>
    intro b nd hsep hnd
    cases nd with
    | nil => exact ⟨_, rfl⟩
    | cons x nd' =>
      rcases List.cons_prefix_cons.mp hnd with ⟨rfl, _⟩
      exact absurd (List.mem_cons_self _ _) hsep
  | cons c a' ih =>
    intro b nd hsep hnd
    cases nd with
    | nil => exact ⟨_, rfl⟩
    | cons x nd' =>
      rcases List.cons_prefix_cons.mp hnd with ⟨rfl, h2⟩
      have := ih b nd' (fun hm => hsep (List.mem_cons_of_mem _ hm)) h2
      exact List.cons_prefix_cons.mpr ⟨rfl, this⟩

theorem infix_through_sep (sep : Char) :
    ∀ (a b nd : List Char), sep ∉ nd →
      nd <:+: (a ++ sep :: b) → nd <:+: a ∨ nd <:+: b := by
  intro a
  induction a with
  | nil =>
    intro b nd hsep hnd
    rcases List.infix_cons_iff.mp hnd with hp | hi
    · cases nd with
      | nil => exact Or.inl ⟨[], [], rfl⟩
      | cons x nd' =>
        rcases List.cons_prefix_cons.mp hp with ⟨rfl, _⟩
        exact absurd (List.mem_cons_self _ _) hsep
    · exact Or.inr hi
  | cons c a' ih =>
    intro b nd hsep hnd
    rcases List.infix_cons_iff.mp hnd with hp | hi
    · have hp' : nd <+: (c :: a') ++ sep :: b := by simpa using hp
      exact Or.inl (prefix_through_sep sep (c :: a') b nd hsep hp').isInfix
    · rcases ih b nd hsep hi with h | h
      · exact Or.inl (h.trans ⟨[c], [], by simp⟩)
      · exact Or.inr h

theorem ndl_cons : ndl = 'u' :: ndlRest := by decide

theorem BASEl_decomp : BASEl = "https://".toList ++ ndl := by decide

theorem splitP_cons_sep (p : Char → Bool) (c : Char) (hc : p c = true)
    (rest : List Char) : splitP p (c :: rest) = splitP p rest := by
  simp [splitP, splitPAux, hc]

theorem projectPath_canonical (s0 s1 : List Char)
    (h0ne : s0 ≠ []) (h1ne : s1 ≠ [])
    (h0s : ∀ c ∈ s0, slashP c = false) (h1s : ∀ c ∈ s1, slashP c = false)
    (h0i : ¬ ndl <:+: s0) (h1i : ¬ ndl <:+: s1)
    (hres : s0 ∉ reservedSegs) :
    projectPath (BASEl ++ ('/' :: s0 ++ '/' :: s1)) = some ('/' :: s0 ++ '/' :: s1) := by
  have hslash : '/' ∉ ndl := by decide
  have hp_eq : '/' :: s0 ++ '/' :: s1 = '/' :: (s0 ++ '/' :: s1) := by simp
  have hne : BASEl ++ ('/' :: s0 ++ '/' :: s1) ≠ [] := by
    intro hc
    exact absurd (List.append_eq_nil.mp hc).1 (by decide)
  have hhttp : "http".toList.isPrefixOf (BASEl ++ ('/' :: s0 ++ '/' :: s1)) = true := by
    apply List.isPrefixOf_iff_prefix.mpr
    have h1 : "http".toList <+: BASEl := by decide
    exact h1.trans (List.prefix_append _ _)
  have hsub : isSubl ndl (BASEl ++ ('/' :: s0 ++ '/' :: s1)) = true := by
    apply (isSubl_iff _ _).mpr
    exact ⟨"https://".toList, '/' :: s0 ++ '/' :: s1, by rw [BASEl_decomp]⟩
  have hnocc : ¬ ndl <:+: ndlRest ++ ('/' :: s0 ++ '/' :: s1) := by
    rw [hp_eq]
    intro hc
    rcases infix_through_sep '/' ndlRest (s0 ++ '/' :: s1) ndl hslash hc with h | h
    · have hle := h.length_le
      have e1 : ndl.length = 21 := by decide
      have e2 : ndlRest.length = 20 := by decide
      omega
    · rcases infix_through_sep '/' s0 s1 ndl hslash h with h | h
      · exact h0i h
      · exact h1i h
  have hafter : afterLast ndl (BASEl ++ ('/' :: s0 ++ '/' :: s1)) = '/' :: s0 ++ '/' :: s1 := by
    rw [BASEl_decomp, List.append_assoc]
    rw [afterLast_append_occ ndl "https://".toList _
      ((List.prefix_append ndl _).isInfix)]
    rw [ndl_cons]
    rw [ndl_cons] at hnocc
    exact afterLast_head_occurrence 'u' ndlRest _ hnocc
  have hsplit : splitP slashP (afterLast ndl (BASEl ++ ('/' :: s0 ++ '/' :: s1))) = [s0, s1] := by
    rw [hafter, hp_eq]
    rw [splitP_cons_sep slashP '/' (by decide) _]
    unfold splitP
    rw [splitPAux_append_sep slashP '/' (by decide)]
    have e1 : splitPAux slashP [] s0 = [s0] := splitP_single s0 slashP h0s h0ne
    have e2 : splitPAux slashP [] s1 = [s1] := splitP_single s1 slashP h1s h1ne
    rw [e1, e2]
    rfl
  have hfh : fullHref (BASEl ++ ('/' :: s0 ++ '/' :: s1)) = BASEl ++ ('/' :: s0 ++ '/' :: s1) := by
    unfold fullHref
    rw [hhttp]
    simp
  unfold projectPath
  rw [if_neg hne, hfh, hsub]
  simp only [if_true, eq_self_iff_true]
  rw [hsplit]
  simp [hres]

theorem projectPath_good (h p : List Char) (hp : projectPath h = some p) :
    projectPath (BASEl ++ p) = some p := by
  unfold projectPath at hp
  by_cases h0 : h = []
  · simp [h0] at hp
  · rw [if_neg h0] at hp
    by_cases h1 : isSubl ndl (fullHref h) = true
    · rw [h1] at hp
      simp only [if_true, eq_self_iff_true] at hp
      set t := afterLast ndl (fullHref h) with ht
      have hnot : ¬ ndl <:+: t := afterLast_no_occurrence ndl (by decide) (fullHref h)
      cases hsp : splitP slashP t with
      | nil => rw [hsp] at hp; exact absurd hp (by simp)
      | cons s0 rest =>
        cases rest with
        | nil => rw [hsp] at hp; exact absurd hp (by simp)
        | cons s1 rest' =>
          rw [hsp] at hp
          have hp' : (if s0 ∈ reservedSegs then (none : Option (List Char))
              else some ('/' :: s0 ++ '/' :: s1)) = some p := hp
          by_cases hres : s0 ∈ reservedSegs
          · rw [if_pos hres] at hp'; exact absurd hp' (by simp)
          · rw [if_neg hres] at hp'
            have hpeq : p = '/' :: s0 ++ '/' :: s1 := by
              have := Option.some.inj hp'
              exact this.symm
            subst hpeq
            have hm0 : s0 ∈ splitP slashP t := by rw [hsp]; simp
            have hm1 : s1 ∈ splitP slashP t := by rw [hsp]; simp
            have h0p := splitP_pieces slashP t s0 hm0
            have h1p := splitP_pieces slashP t s1 hm1
            have h0i : ¬ ndl <:+: s0 :=
              fun hc => hnot (hc.trans (splitP_mem_of_piece slashP t s0 hm0))
            have h1i : ¬ ndl <:+: s1 :=
              fun hc => hnot (hc.trans (splitP_mem_of_piece slashP t s1 hm1))
            exact projectPath_canonical s0 s1 h0p.1 h1p.1 h0p.2 h1p.2 h0i h1i hres
    · rw [if_neg h1] at hp
      exact absurd hp (by simp)

theorem dedupAux_spec : ∀ (L seen : List (List Char)),
    ∃ ps : List (List Char),
      dedupAux seen L = ps.map (fun p => BASEl ++ p) ∧ ps.Nodup ∧
      ∀ p ∈ ps, projectPath (BASEl ++ p) = some p ∧ p ∉ seen := by
  intro L
  induction L with
  | nil => intro seen; exact ⟨[], rfl, List.nodup_nil, by simp⟩
  | cons h hs ih =>
    intro seen
    cases hph : projectPath h with
    | none => simpa only [dedupAux, hph] using ih seen
    | some p =>
      by_cases hmem : p ∈ seen
      · simpa only [dedupAux, hph, hmem, if_true, eq_self_iff_true] using ih seen
      · rcases ih (p :: seen) with ⟨ps, heq, hnd, hprops⟩
        refine ⟨p :: ps, ?_, ?_, ?_⟩
        · simp only [dedupAux, hph, hmem, if_false, List.map_cons]
          rw [heq]
        · refine List.nodup_cons.mpr ⟨?_, hnd⟩
          intro hc
          exact (hprops p hc).2 (List.mem_cons_self _ _)
        · intro q hq
          rcases List.mem_cons.mp hq with rfl | hq
          · exact ⟨projectPath_good h q hph, hmem⟩
          · exact ⟨(hprops q hq).1, fun hqs => (hprops q hq).2 (List.mem_cons_of_mem _ hqs)⟩

theorem dedupAux_fixed : ∀ (ps seen : List (List Char)), ps.Nodup →
    (∀ p ∈ ps, projectPath (BASEl ++ p) = some p ∧ p ∉ seen) →
    dedupAux seen (ps.map (fun p => BASEl ++ p)) = ps.map (fun p => BASEl ++ p) := by
  intro ps
  induction ps with
  | nil => intro seen _ _; rfl
  | cons p ps ih =>
    intro seen hnd hprops
    have hgood := (hprops p (List.mem_cons_self _ _)).1
    have hnmem := (hprops p (List.mem_cons_self _ _)).2
    simp only [List.map_cons]
    show dedupAux seen ((BASEl ++ p) :: ps.map (fun q => BASEl ++ q)) = _
    simp only [dedupAux, hgood]
    rw [if_neg hnmem]
    congr 1
    apply ih (p :: seen) (List.nodup_cons.mp hnd).2
    intro q hq
    refine ⟨(hprops q (List.mem_cons_of_mem _ hq)).1, ?_⟩
    intro hqs
    rcases List.mem_cons.mp hqs with rfl | hqs
    · exact (List.nodup_cons.mp hnd).1 hq
    · exact (hprops q (List.mem_cons_of_mem _ hq)).2 hqs

theorem splitP_piece_single (p : Char → Bool) (s w : List Char)
    (hw : w ∈ splitP p s) : splitP p w = [w] :=
  splitP_single w p (splitP_pieces p s w hw).2 (splitP_pieces p s w hw).1

theorem sum_map_le_card {α : Type} (f : α → Nat) :
    ∀ l : List α, (∀ x ∈ l, f x ≤ 1) → (l.map f).sum ≤ l.length := by
  intro l
  induction l with
  | nil => intro _; simp
  | cons x xs ih =>
    intro h
    simp only [List.map_cons, List.sum_cons, List.length_cons]
    have h1 := h x (List.mem_cons_self _ _)
    have h2 := ih (fun y hy => h y (List.mem_cons_of_mem _ hy))
    omega

theorem modelOf_cases (kw : List Char) : modelOf kw = [] ∨ modelOf kw = [kwModel] := by
  unfold modelOf
  split
  · exact Or.inl rfl
  · exact Or.inr rfl

theorem taskOf_cases (kw : List Char) :
    taskOf kw = [] ∨ taskOf kw = [kwInstSeg] ∨ taskOf kw = [kwObjDet] ∨ taskOf kw = [kwImgCls] := by
  unfold taskOf
  split
  · split
    · exact Or.inr (Or.inl rfl)
    · split
      · exact Or.inr (Or.inr (Or.inl rfl))
      · split
        · exact Or.inr (Or.inr (Or.inr rfl))
        · exact Or.inl rfl
  · exact Or.inl rfl

theorem fallbackTerms_eq (kw : List Char) :
    fallbackTerms kw = ((splitP pySpace kw).take 2 ++ modelOf kw) ++ taskOf kw := by
  unfold fallbackTerms
  apply List.take_of_length_le
  have h1 : ((splitP pySpace kw).take 2).length ≤ 2 := List.length_take_le 2 _
  have h2 : (modelOf kw).length ≤ 1 := by
    rcases modelOf_cases kw with h | h <;> simp [h]
  have h3 : (taskOf kw).length ≤ 1 := by
    rcases taskOf_cases kw with h | h | h | h <;> simp [h]
  simp only [List.length_append]
  omega

theorem wordCount_terms (terms : List (List Char)) :
    (splitP pySpace (joinSep ' ' terms)).length =
      (terms.map (fun w => (splitP pySpace w).length)).sum := by
  rw [splitP_joinSep pySpace ' ' (by decide), List.length_flatMap]
  congr 1

/-- Word count of every built query is at most five. -/
theorem buildSearchKeywords_word_bound (kw : List Char) :
    (splitP pySpace (buildSearchKeywords kw)).length ≤ 5 := by
  unfold buildSearchKeywords
  split
  · rw [wordCount_terms]
    have hle := sum_map_le_card (fun w => (splitP pySpace w).length)
      ((splitP pySpace kw).take 5) ?_
    · calc _ ≤ ((splitP pySpace kw).take 5).length := hle
        _ ≤ 5 := List.length_take_le 5 _
    · intro w hw
      show (splitP pySpace w).length ≤ 1
      rw [splitP_piece_single pySpace kw w (List.mem_of_mem_take hw)]
      simp
  · rw [wordCount_terms, fallbackTerms_eq]
    simp only [List.map_append, List.sum_append]
    have h1 : (((splitP pySpace kw).take 2).map (fun w => (splitP pySpace w).length)).sum ≤ 2 := by
      have hle := sum_map_le_card (fun w => (splitP pySpace w).length)
        ((splitP pySpace kw).take 2) ?_
      · calc _ ≤ ((splitP pySpace kw).take 2).length := hle
          _ ≤ 2 := List.length_take_le 2 _
      · intro w hw
        show (splitP pySpace w).length ≤ 1
        rw [splitP_piece_single pySpace kw w (List.mem_of_mem_take hw)]
        simp
    have h2 : ((modelOf kw).map (fun w => (splitP pySpace w).length)).sum ≤ 1 := by
      rcases modelOf_cases kw with h | h
      · simp [h]
      · rw [h]
        have : splitP pySpace kwModel = [kwModel] := by decide
        simp [this]
    have h3 : ((taskOf kw).map (fun w => (splitP pySpace w).length)).sum ≤ 2 := by
      rcases taskOf_cases kw with h | h | h | h
      · simp [h]
      · rw [h]
        have : (splitP pySpace kwInstSeg).length = 2 := by decide
        simp [this]
      · rw [h]
        have : (splitP pySpace kwObjDet).length = 2 := by decide
        simp [this]
      · rw [h]
        have : (splitP pySpace kwImgCls).length = 2 := by decide
        simp [this]
    omega

theorem fallback_model_present (kw : List Char)
    (h : (hasTaskPhrase (lowerl kw) && isSubl kwModel (lowerl kw)) = false) :
    ∃ w ∈ splitP pySpace (buildSearchKeywords kw), lowerl w = kwModel := by
  unfold buildSearchKeywords
  simp only [h, Bool.false_eq_true, if_false]
  rw [splitP_joinSep pySpace ' ' (by decide), fallbackTerms_eq]
  by_cases hm : kwModel ∈ ((splitP pySpace kw).take 2).map lowerl
  · rcases List.mem_map.mp hm with ⟨w, hw2, hlow⟩
    refine ⟨w, ?_, hlow⟩
    apply List.mem_flatMap.mpr
    refine ⟨w, ?_, ?_⟩
    · simp only [List.mem_append]
      exact Or.inl (Or.inl hw2)
    · rw [splitP_piece_single pySpace kw w (List.mem_of_mem_take hw2)]
      simp
  · have hmo : modelOf kw = [kwModel] := by unfold modelOf; rw [if_neg hm]
    refine ⟨kwModel, ?_, by decide⟩
    apply List.mem_flatMap.mpr
    refine ⟨kwModel, ?_, ?_⟩
    · simp only [List.mem_append, hmo]
      exact Or.inl (Or.inr (by simp [hmo]))
    · have : splitP pySpace kwModel = [kwModel] := by decide
      simp [this]

theorem fallback_seg_phrase (kw : List Char)
    (h : (hasTaskPhrase (lowerl kw) && isSubl kwModel (lowerl kw)) = false)
    (h1 : isSubl kwInstSeg (lowerl kw) = false)
    (h2 : isSubl kwKeyDet (lowerl kw) = false)
    (h3 : (isSubl "segment".toList (lowerl kw) || isSubl "segmentation".toList (lowerl kw)) = true) :
    ∃ pre, splitP pySpace (buildSearchKeywords kw) =
      pre ++ ["instance".toList, "segmentation".toList] := by
  unfold buildSearchKeywords
  simp only [h, Bool.false_eq_true, if_false]
  rw [splitP_joinSep pySpace ' ' (by decide), fallbackTerms_eq]
  have ht : taskOf kw = [kwInstSeg] := by
    unfold taskOf
    rw [if_pos ⟨h1, h2⟩, if_pos h3]
  rw [ht, List.flatMap_append]
  refine ⟨((splitP pySpace kw).take 2 ++ modelOf kw).flatMap (splitP pySpace), ?_⟩
  congr 1

theorem modelIdOfUrl_with_slash (url : List Char) (hs : '/' ∈ url) :
    modelIdOfUrl url =
      (splitKeep '/' url).getD ((splitKeep '/' url).length - 2) [] ++
        '/' :: (splitKeep '/' url).getD ((splitKeep '/' url).length - 1) [] := by
  have hlen : 2 ≤ (splitKeep '/' url).length := (splitKeep_two_iff '/' url).mpr hs
  have hlen1 : 1 ≤ (splitKeep '/' url).length := by omega
  have hmem2 : (splitKeep '/' url).getD ((splitKeep '/' url).length - 2) [] ∈ splitKeep '/' url := by
    rw [List.getD_eq_getElem _ _ (by omega)]
    exact List.getElem_mem _
  have hmem1 : (splitKeep '/' url).getD ((splitKeep '/' url).length - 1) [] ∈ splitKeep '/' url := by
    rw [List.getD_eq_getElem _ _ (by omega)]
    exact List.getElem_mem _
  have hws : (splitKeep '/' url).getD ((splitKeep '/' url).length - 2) [] ≠ NAl := by
    intro hc
    have := splitKeep_no_sep_mem '/' url _ hmem2 '/' (by rw [hc]; decide)
    exact this rfl
  have hpj : (splitKeep '/' url).getD ((splitKeep '/' url).length - 1) [] ≠ NAl := by
    intro hc
    have := splitKeep_no_sep_mem '/' url _ hmem1 '/' (by rw [hc]; decide)
    exact this rfl
  unfold modelIdOfUrl
  rw [if_pos hlen, if_pos hlen1]
  unfold mkModelId
  rw [if_pos ⟨hws, hpj⟩]

theorem modelIdOfUrl_no_slash (url : List Char) (hs : '/' ∉ url) :
    modelIdOfUrl url = NAl := by
  have hlen : ¬ 2 ≤ (splitKeep '/' url).length := by
    intro hc
    exact hs ((splitKeep_two_iff '/' url).mp hc)
  unfold modelIdOfUrl
  rw [if_neg hlen]
  unfold mkModelId
  simp

/-! ## Supporting lemmas for the normalizer -/

theorem exbind_ok {α β : Type} (a : α) (f : α → Except String β) :
    (Except.ok a >>= f) = f a := rfl

theorem exbind_error {α β : Type} (e : String) (f : α → Except String β) :
    ((Except.error e : Except String α) >>= f) = Except.error e := rfl

theorem expure {α : Type} (a : α) : (pure a : Except String α) = Except.ok a := rfl

theorem exbind_ok_inv {α β : Type} {e : Except String α} {f : α → Except String β} {b : β}
    (h : (e >>= f) = .ok b) : ∃ a, e = .ok a ∧ f a = .ok b := by
  cases e with
  | error s => rw [exbind_error] at h; exact absurd h (by simp)
  | ok a => exact ⟨a, rfl, h⟩

theorem hasKey_jlookup (fields : List (String × Json)) (k : String)
    (h : hasKey fields k = true) : ∃ v, jlookup fields k = some v := by
  have := List.any_eq_true.mp h
  rcases this with ⟨f, hf, hp⟩
  have : (fields.find? (fun f => f.1 == k)).isSome = true :=
    List.find?_isSome.mpr ⟨f, hf, hp⟩
  rcases Option.isSome_iff_exists.mp this with ⟨g, hg⟩
  exact ⟨g.2, by simp [jlookup, hg]⟩

theorem jlookup_hasKey (fields : List (String × Json)) (k : String) (v : Json)
    (h : jlookup fields k = some v) : hasKey fields k = true := by
  unfold jlookup at h
  cases hf : fields.find? (fun f => f.1 == k) with
  | none => rw [hf] at h; simp at h
  | some g =>
    have hmem := List.mem_of_find?_eq_some hf
    have hpg : (fun f => f.1 == k) g = true :=
      @List.find?_some _ (fun f => f.1 == k) g fields hf
    exact List.any_eq_true.mpr ⟨g, hmem, hpg⟩

theorem predLE_trans : ∀ (a b c : Prediction),
    predLE a b = true → predLE b c = true → predLE a c = true := by
  intro a b c hab hbc
  simp only [predLE, decide_eq_true_eq] at *
  exact le_trans hbc hab

theorem predLE_total : ∀ (a b : Prediction), (predLE a b || predLE b a) = true := by
  intro a b
  simp only [predLE, Bool.or_eq_true, decide_eq_true_eq]
  exact le_total _ _

theorem normalizeResp_dict (d : List (String × Json)) :
    normalizeResp (Json.obj [("predictions", Json.obj d)]) = sortPreds (classFromDict d) := by
  have hclass : classifyPhase (Json.obj [("predictions", Json.obj d)]) =
      sortPreds (classFromDict d) := rfl
  show classifyPhase (Json.obj [("predictions", Json.obj d)]) >>=
      spatialPhase (Json.obj [("predictions", Json.obj d)]) = _
  rw [hclass]
  cases hs : sortPreds (classFromDict d) with
  | error e => rfl
  | ok preds => rfl

/-- C2: a dictionary-keyed classification payload is returned as the list of
its entries sorted by confidence descending, with entries of equal
confidence kept in input key order (stated as invariance of every
equal-confidence fibre). -/
theorem dict_classification_sorted_stable (d : List (String × Json)) (l : List Prediction)
    (h : normalizeResp (Json.obj [("predictions", Json.obj d)]) = .ok l) :
    l.Pairwise (fun a b => confKey b ≤ confKey a) ∧
    l.Perm (classFromDict d) ∧
    ∀ q : ℚ, l.filter (fun p => asNum p.confidence == some q) =
      (classFromDict d).filter (fun p => asNum p.confidence == some q) := by
  rw [normalizeResp_dict] at h
  unfold sortPreds at h
  split at h
  · simp at h
  · have hl : l = (classFromDict d).mergeSort predLE := (Except.ok.inj h).symm
    subst hl
    refine ⟨?_, List.mergeSort_perm _ _, ?_⟩
    · have hs := List.sorted_mergeSort predLE_trans predLE_total (classFromDict d)
      exact hs.imp (fun hab => by simpa [predLE, decide_eq_true_eq] using hab)
    · intro q
      have hallq : ∀ p ∈ (classFromDict d).filter (fun p => asNum p.confidence == some q),
          confKey p = q := by
        intro p hp
        have h2 := (List.mem_filter.mp hp).2
        have h3 : asNum p.confidence = some q := by simpa using h2
        simp [confKey, h3]
      have hpw : ((classFromDict d).filter
          (fun p => asNum p.confidence == some q)).Pairwise (fun a b => predLE a b = true) := by
        apply List.pairwise_of_forall_mem_list
        intro a ha b hb
        simp only [predLE, decide_eq_true_eq, hallq a ha, hallq b hb]
        exact le_refl q
      have hsubl : List.Sublist
          ((classFromDict d).filter (fun p => asNum p.confidence == some q))
          ((classFromDict d).mergeSort predLE) :=
        List.sublist_mergeSort predLE_trans predLE_total hpw (List.filter_sublist _)
      have hfix : ((classFromDict d).filter (fun p => asNum p.confidence == some q)).filter
          (fun p => asNum p.confidence == some q) =
          (classFromDict d).filter (fun p => asNum p.confidence == some q) :=
        List.filter_eq_self.mpr (fun a ha => (List.mem_filter.mp ha).2)
      have hsub2 : List.Sublist
          ((classFromDict d).filter (fun p => asNum p.confidence == some q))
          (((classFromDict d).mergeSort predLE).filter (fun p => asNum p.confidence == some q)) := by
        have := hsubl.filter (fun p => asNum p.confidence == some q)
        rwa [hfix] at this
      have hlen : (((classFromDict d).mergeSort predLE).filter
          (fun p => asNum p.confidence == some q)).length =
          ((classFromDict d).filter (fun p => asNum p.confidence == some q)).length :=
        (((List.mergeSort_perm (classFromDict d) predLE)).filter _).length_eq
      exact (hsub2.eq_of_length (by omega)).symm

theorem classPredOfTop_pure (top conf : Json) : isPureClass (classPredOfTop top conf) :=
  ⟨rfl, rfl, rfl, rfl, rfl, rfl, rfl, rfl, rfl⟩

theorem classFromDict_pure (d : List (String × Json)) :
    ∀ p ∈ classFromDict d, isPureClass p := by
  intro p hp
  rcases List.mem_filterMap.mp hp with ⟨f, _, hf⟩
  rcases f with ⟨k, v⟩
  cases v <;> simp at hf
  rw [← hf]
  exact ⟨rfl, rfl, rfl, rfl, rfl, rfl, rfl, rfl, rfl⟩

theorem classFromList_pure (xs : List Json) :
    ∀ p ∈ classFromList xs, isPureClass p := by
  intro p hp
  rcases List.mem_filterMap.mp hp with ⟨x, _, hf⟩
  cases x <;> simp at hf
  rw [← hf]
  exact ⟨rfl, rfl, rfl, rfl, rfl, rfl, rfl, rfl, rfl⟩

theorem classFromBareList_pure (xs : List Json) :
    ∀ p ∈ classFromBareList xs, isPureClass p := by
  intro p hp
  rcases List.mem_filterMap.mp hp with ⟨x, _, hf⟩
  cases x <;> simp at hf
  rw [← hf]
  exact ⟨rfl, rfl, rfl, rfl, rfl, rfl, rfl, rfl, rfl⟩

theorem sortPreds_perm (pl l : List Prediction) (h : sortPreds pl = .ok l) :
    l.Perm pl := by
  unfold sortPreds at h
  split at h
  · simp at h
  · have : l = pl.mergeSort predLE := (Except.ok.inj h).symm
    rw [this]
    exact List.mergeSort_perm pl predLE

theorem classifyPhase_pure (j : Json) (preds : List Prediction)
    (h : classifyPhase j = .ok preds) : ∀ p ∈ preds, isPureClass p := by
  cases j with
  | null => simp [classifyPhase] at h
  | bool b => simp [classifyPhase] at h
  | num q => simp [classifyPhase] at h
  | str s =>
    simp only [classifyPhase] at h
    by_cases h1 : isSubl "top".toList s.toList = true
    · rw [if_pos h1] at h; simp at h
    · rw [if_neg h1] at h
      by_cases h2 : isSubl "predictions".toList s.toList = true
      · rw [if_pos h2] at h; simp at h
      · rw [if_neg h2] at h
        by_cases h3 : isSubl "class".toList s.toList = true
        · rw [if_pos h3] at h; simp at h
        · rw [if_neg h3] at h
          have he : preds = [] := (Except.ok.inj h).symm
          rw [he]; simp
  | arr xs =>
    simp only [classifyPhase] at h
    by_cases h1 : hasStrElem xs "top" = true
    · rw [if_pos h1] at h; simp at h
    · rw [if_neg h1] at h
      by_cases h2 : hasStrElem xs "predictions" = true
      · rw [if_pos h2] at h; simp at h
      · rw [if_neg h2] at h
        have he : preds = classFromBareList xs := (Except.ok.inj h).symm
        rw [he]
        exact classFromBareList_pure xs
  | obj fields =>
    simp only [classifyPhase] at h
    by_cases h1 : hasKey fields "top" = true
    · rw [if_pos h1] at h
      have he : preds = [classPredOfTop ((jlookup fields "top").getD (.str "unknown"))
          ((jlookup fields "confidence").getD (.num 0))] := (Except.ok.inj h).symm
      rw [he]
      intro p hp
      rw [List.mem_singleton.mp hp]
      exact classPredOfTop_pure _ _
    · rw [if_neg h1] at h
      by_cases h2 : hasKey fields "predictions" = true
      · rw [if_pos h2] at h
        cases hlk : jlookup fields "predictions" with
        | none => rw [hlk] at h; simp at h
        | some v =>
          rw [hlk] at h
          cases v with
          | obj d =>
            have h' : sortPreds (classFromDict d) = .ok preds := h
            intro p hp
            exact classFromDict_pure d p ((sortPreds_perm _ _ h').mem_iff.mp hp)
          | arr ys =>
            have h' : classifyArr ys = .ok preds := h
            cases ys with
            | nil =>
              have he : preds = [] := (Except.ok.inj h').symm
              rw [he]; simp
            | cons first rest =>
              cases first with
              | obj fp =>
                simp only [classifyArr] at h'
                by_cases hc : (hasKey fp "top" ||
                    (hasKey fp "class" && !hasKey fp "x" && !hasKey fp "bbox")) = true
                · rw [if_pos hc] at h'
                  have he : preds = classFromList (Json.obj fp :: rest) := (Except.ok.inj h').symm
                  rw [he]
                  exact classFromList_pure _
                · rw [if_neg hc] at h'
                  have he : preds = [] := (Except.ok.inj h').symm
                  rw [he]; simp
              | null =>
                have he : preds = [] := (Except.ok.inj h').symm
                rw [he]; simp
              | bool b =>
                have he : preds = [] := (Except.ok.inj h').symm
                rw [he]; simp
              | num q =>
                have he : preds = [] := (Except.ok.inj h').symm
                rw [he]; simp
              | str s =>
                have he : preds = [] := (Except.ok.inj h').symm
                rw [he]; simp
              | arr zs =>
                have he : preds = [] := (Except.ok.inj h').symm
                rw [he]; simp
          | null =>
            have h' : (Except.ok [] : Except String (List Prediction)) = .ok preds := h
            have he : preds = [] := (Except.ok.inj h').symm
            rw [he]; simp
          | bool b =>
            have h' : (Except.ok [] : Except String (List Prediction)) = .ok preds := h
            have he : preds = [] := (Except.ok.inj h').symm
            rw [he]; simp
          | num q =>
            have h' : (Except.ok [] : Except String (List Prediction)) = .ok preds := h
            have he : preds = [] := (Except.ok.inj h').symm
            rw [he]; simp
          | str s =>
            have h' : (Except.ok [] : Except String (List Prediction)) = .ok preds := h
            have he : preds = [] := (Except.ok.inj h').symm
            rw [he]; simp
      · rw [if_neg h2] at h
        by_cases h3 : hasKey fields "class" = true
        · rw [if_pos h3] at h
          have he : preds = [classPredOfTop ((jlookup fields "class").getD (.str "unknown"))
              ((jlookup fields "confidence").getD (.num 0))] := (Except.ok.inj h).symm
          rw [he]
          intro p hp
          rw [List.mem_singleton.mp hp]
          exact classPredOfTop_pure _ _
        · rw [if_neg h3] at h
          have he : preds = [] := (Except.ok.inj h).symm
          rw [he]; simp

theorem spatialOne_bbox (pd : List (String × Json)) (p : Prediction)
    (h : spatialOne pd = .ok p) :
    ∃ b : BBox, p.bbox = some b ∧ b.x = b.center_x - b.width / 2 ∧
      b.y = b.center_y - b.height / 2 := by
  unfold spatialOne at h
  cases hcx : toNumE ((jlookup pd "x").getD (.num 0)) with
  | error e => simp [hcx, exbind_error] at h
  | ok cx =>
    simp only [hcx, exbind_ok] at h
    cases hcy : toNumE ((jlookup pd "y").getD (.num 0)) with
    | error e => simp [hcy, exbind_error] at h
    | ok cy =>
      simp only [hcy, exbind_ok] at h
      cases hw : toNumE ((jlookup pd "width").getD (.num 0)) with
      | error e => simp [hw, exbind_error] at h
      | ok w =>
        simp only [hw, exbind_ok] at h
        cases hh : toNumE ((jlookup pd "height").getD (.num 0)) with
        | error e => simp [hh, exbind_error] at h
        | ok hgt =>
          simp only [hh, exbind_ok] at h
          cases hk : jlookup pd "keypoints" with
          | none =>
            simp only [hk, expure] at h
            have he := Except.ok.inj h
            subst he
            exact ⟨⟨cx - w / 2, cy - hgt / 2, w, hgt, cx, cy⟩, rfl, rfl, rfl⟩
          | some v =>
            cases v with
            | arr ks =>
              simp only [hk, expure] at h
              have he := Except.ok.inj h
              subst he
              exact ⟨⟨cx - w / 2, cy - hgt / 2, w, hgt, cx, cy⟩, rfl, rfl, rfl⟩
            | null =>
              simp only [hk, expure] at h
              have he := Except.ok.inj h
              subst he
              exact ⟨⟨cx - w / 2, cy - hgt / 2, w, hgt, cx, cy⟩, rfl, rfl, rfl⟩
            | bool b =>
              simp only [hk, expure] at h
              have he := Except.ok.inj h
              subst he
              exact ⟨⟨cx - w / 2, cy - hgt / 2, w, hgt, cx, cy⟩, rfl, rfl, rfl⟩
            | num q =>
              simp only [hk, expure] at h
              have he := Except.ok.inj h
              subst he
              exact ⟨⟨cx - w / 2, cy - hgt / 2, w, hgt, cx, cy⟩, rfl, rfl, rfl⟩
            | str s =>
              simp only [hk, expure] at h
              have he := Except.ok.inj h
              subst he
              exact ⟨⟨cx - w / 2, cy - hgt / 2, w, hgt, cx, cy⟩, rfl, rfl, rfl⟩
            | obj d =>
              simp only [hk, expure] at h
              have he := Except.ok.inj h
              subst he
              exact ⟨⟨cx - w / 2, cy - hgt / 2, w, hgt, cx, cy⟩, rfl, rfl, rfl⟩

theorem spatialList_bbox : ∀ (xs : List Json) (l : List Prediction),
    spatialList xs = .ok l → ∀ p ∈ l, ∃ b : BBox, p.bbox = some b ∧
      b.x = b.center_x - b.width / 2 ∧ b.y = b.center_y - b.height / 2 := by
  intro xs
  induction xs with
  | nil =>
    intro l h p hp
    have he : l = [] := (Except.ok.inj h).symm
    subst he; simp at hp
  | cons x xs ih =>
    intro l h p hp
    cases x with
    | obj pd =>
      simp only [spatialList] at h
      cases ho : spatialOne pd with
      | error e => simp [ho, exbind_error] at h
      | ok p0 =>
        simp only [ho, exbind_ok] at h
        cases hr : spatialList xs with
        | error e => simp [hr, exbind_error] at h
        | ok rest =>
          simp only [hr, exbind_ok, expure] at h
          have he : l = p0 :: rest := (Except.ok.inj h).symm
          subst he
          rcases List.mem_cons.mp hp with rfl | hp2
          · exact spatialOne_bbox pd p ho
          · exact ih rest hr p hp2
    | null => exact ih l h p hp
    | bool b => exact ih l h p hp
    | num q => exact ih l h p hp
    | str s => exact ih l h p hp
    | arr ys => exact ih l h p hp

theorem spatialPhase_cases (result : Json) (preds l : List Prediction)
    (h : spatialPhase result preds = .ok l) :
    l = preds ∨ ∃ xs, spatialList xs = .ok l := by
  cases result with
  | null => simp [spatialPhase] at h
  | bool b => simp [spatialPhase] at h
  | num q => simp [spatialPhase] at h
  | str s =>
    simp only [spatialPhase] at h
    by_cases h1 : isSubl "predictions".toList s.toList = true
    · rw [if_pos h1] at h; simp at h
    · rw [if_neg h1] at h
      exact Or.inl (Except.ok.inj h).symm
  | arr xs =>
    simp only [spatialPhase] at h
    by_cases h1 : hasStrElem xs "predictions" = true
    · rw [if_pos h1] at h; simp at h
    · rw [if_neg h1] at h
      exact Or.inl (Except.ok.inj h).symm
  | obj fields =>
    simp only [spatialPhase] at h
    by_cases h1 : hasKey fields "predictions" = true
    · rw [if_pos h1] at h
      cases hlk : jlookup fields "predictions" with
      | none => rw [hlk] at h; simp at h
      | some v =>
        rw [hlk] at h
        cases v with
        | arr xs =>
          have h' : (if preds.isEmpty then spatialList xs else .ok preds) = .ok l := h
          by_cases he : preds.isEmpty = true
          · rw [if_pos he] at h'
            exact Or.inr ⟨xs, h'⟩
          · rw [if_neg he] at h'
            exact Or.inl (Except.ok.inj h').symm
        | null =>
          have h' : (Except.ok preds : Except String (List Prediction)) = .ok l := h
          exact Or.inl (Except.ok.inj h').symm
        | bool b =>
          have h' : (Except.ok preds : Except String (List Prediction)) = .ok l := h
          exact Or.inl (Except.ok.inj h').symm
        | num q =>
          have h' : (Except.ok preds : Except String (List Prediction)) = .ok l := h
          exact Or.inl (Except.ok.inj h').symm
        | str s =>
          have h' : (Except.ok preds : Except String (List Prediction)) = .ok l := h
          exact Or.inl (Except.ok.inj h').symm
        | obj d =>
          have h' : (Except.ok preds : Except String (List Prediction)) = .ok l := h
          exact Or.inl (Except.ok.inj h').symm
    · rw [if_neg h1] at h
      exact Or.inl (Except.ok.inj h).symm

/-! ## Supporting lemmas for classes extraction -/

theorem filteredDedup_extends : ∀ (ts acc : List (List Char)),
    ∃ ext, filteredDedup acc ts = acc ++ ext := by
  intro ts
  induction ts with
  | nil => intro acc; exact ⟨[], by simp [filteredDedup]⟩
  | cons cls rest ih =>
    intro acc
    simp only [filteredDedup]
    by_cases hc : 1 < cls.length ∧ cls ∉ uiNoise ∧ cls ∉ acc
    · rw [if_pos hc]
      rcases ih (acc ++ [cls]) with ⟨ext, hext⟩
      exact ⟨[cls] ++ ext, by rw [hext, List.append_assoc]⟩
    · rw [if_neg hc]
      exact ih acc

theorem classesLoop_take : ∀ (ts acc : List (List Char)) (n : Nat), acc.length < n →
    classesLoop n acc ts = (filteredDedup acc ts).take n := by
  intro ts
  induction ts with
  | nil =>
    intro acc n hn
    simp only [classesLoop, filteredDedup]
    rw [List.take_of_length_le (by omega)]
  | cons cls rest ih =>
    intro acc n hn
    simp only [classesLoop, filteredDedup]
    by_cases hc : 1 < cls.length ∧ cls ∉ uiNoise ∧ cls ∉ acc
    · rw [if_pos hc, if_pos hc]
      by_cases h2 : n ≤ (acc ++ [cls]).length
      · rw [if_pos h2]
        rcases filteredDedup_extends rest (acc ++ [cls]) with ⟨ext, hext⟩
        rw [hext]
        have hlen : (acc ++ [cls]).length = n := by
          simp only [List.length_append, List.length_cons, List.length_nil] at h2 ⊢
          omega
        rw [List.take_append_of_le_length (by omega), List.take_of_length_le (by omega)]
      · rw [if_neg h2]
        apply ih (acc ++ [cls]) n
        simp only [List.length_append, List.length_cons, List.length_nil] at h2 ⊢
        omega
    · rw [if_neg hc, if_neg hc]
      exact ih acc n hn

theorem filteredDedup_nodup : ∀ (ts acc : List (List Char)), acc.Nodup →
    (filteredDedup acc ts).Nodup := by
  intro ts
  induction ts with
  | nil => intro acc h; simpa [filteredDedup] using h
  | cons cls rest ih =>
    intro acc h
    simp only [filteredDedup]
    by_cases hc : 1 < cls.length ∧ cls ∉ uiNoise ∧ cls ∉ acc
    · rw [if_pos hc]
      apply ih
      simp [List.nodup_append, h, hc.2.2]
    · rw [if_neg hc]
      exact ih acc h

theorem filteredDedup_mem : ∀ (ts acc : List (List Char)) (x : List Char),
    x ∈ filteredDedup acc ts → x ∈ acc ∨ (x ∈ ts ∧ 1 < x.length ∧ x ∉ uiNoise) := by
  intro ts
  induction ts with
  | nil =>
    intro acc x hx
    simp only [filteredDedup] at hx
    exact Or.inl hx
  | cons cls rest ih =>
    intro acc x hx
    simp only [filteredDedup] at hx
    by_cases hc : 1 < cls.length ∧ cls ∉ uiNoise ∧ cls ∉ acc
    · rw [if_pos hc] at hx
      rcases ih (acc ++ [cls]) x hx with hmem | ⟨hmem, hrest⟩
      · rcases List.mem_append.mp hmem with hmem | hmem
        · exact Or.inl hmem
        · have : x = cls := by simpa using hmem
          subst this
          exact Or.inr ⟨List.mem_cons_self _ _, hc.1, hc.2.1⟩
      · exact Or.inr ⟨List.mem_cons_of_mem _ hmem, hrest⟩
    · rw [if_neg hc] at hx
      rcases ih acc x hx with hmem | ⟨hmem, hrest⟩
      · exact Or.inl hmem
      · exact Or.inr ⟨List.mem_cons_of_mem _ hmem, hrest⟩

theorem tryLens_bounds : ∀ (s : List Char) (k l : Nat),
    tryLens s k = some l → 1 ≤ l ∧ l ≤ k := by
  intro s k
  induction k with
  | zero => intro l h; simp [tryLens] at h
  | succ k ih =>
    intro l h
    simp only [tryLens] at h
    split at h
    · have := Option.some.inj h; omega
    · have := ih l h; omega

theorem take_of_takeWhile (p : Char → Bool) :
    ∀ (l : List Char) (j : Nat), j ≤ (l.takeWhile p).length →
      ∀ c ∈ l.take j, p c = true := by
  intro l
  induction l with
  | nil => intro j hj c hc; simp at hc
  | cons x xs ih =>
    intro j hj c hc
    by_cases hx : p x = true
    · rw [List.takeWhile_cons, if_pos hx] at hj
      cases j with
      | zero => simp at hc
      | succ j' =>
        simp only [List.take_succ_cons] at hc
        rcases List.mem_cons.mp hc with rfl | hc
        · exact hx
        · exact ih j' (by simpa using hj) c hc
    · rw [List.takeWhile_cons, if_neg hx] at hj
      simp at hj
      subst hj
      simp at hc

theorem scanToks_shape : ∀ (fuel : Nat) (prev : Bool) (s : List Char),
    ∀ t ∈ scanToks fuel prev s,
      t ≠ [] ∧ isLowerAZ (t.headD ' ') = true ∧ ∀ c ∈ t, tokChar c = true := by
  intro fuel
  induction fuel with
  | zero => intro prev s t ht; simp [scanToks] at ht
  | succ fuel ih =>
    intro prev s t ht
    cases s with
    | nil => simp [scanToks] at ht
    | cons c cs =>
      simp only [scanToks] at ht
      by_cases hp : (!prev && isLowerAZ c) = true
      · rw [if_pos hp] at ht
        cases htl : tryLens (c :: cs) (1 + min (cs.takeWhile tokChar).length 25) with
        | none => rw [htl] at ht; exact ih _ _ t ht
        | some l =>
          rw [htl] at ht
          rcases List.mem_cons.mp ht with rfl | ht2
          · rcases tryLens_bounds _ _ _ htl with ⟨hl1, hl2⟩
            have hlow : isLowerAZ c = true := by
              have hp2 := hp
              simp only [Bool.and_eq_true] at hp2
              exact hp2.2
            cases l with
            | zero => omega
            | succ lp =>
              refine ⟨by simp [List.take_succ_cons], ?_, ?_⟩
              · simp [List.take_succ_cons]
                exact hlow
              · intro d hd
                rw [List.take_succ_cons] at hd
                rcases List.mem_cons.mp hd with rfl | hd
                · simp [tokChar, hlow]
                · have hmin : min (cs.takeWhile tokChar).length 25 ≤
                      (cs.takeWhile tokChar).length := min_le_left _ _
                  exact take_of_takeWhile tokChar cs lp (by omega) d hd
          · exact ih _ _ t ht2
      · rw [if_neg hp] at ht
        exact ih _ _ t ht

theorem findToks_shape (s : List Char) :
    ∀ t ∈ findToks s, t ≠ [] ∧ isLowerAZ (t.headD ' ') = true ∧ ∀ c ∈ t, tokChar c = true :=
  scanToks_shape (s.length + 1) false s

/-! ## Claim theorems -/

/-- C1: every bounding box emitted by the normalizer satisfies the
center-to-top-left transform x = centerX - width/2 and y = centerY -
height/2, hence the round trips x + width/2 = centerX and y + height/2 =
centerY, and the example payload with a 40 by 20 box centred at (100, 50)
yields exactly the top-left box (80, 40) with the raw centers preserved. -/
theorem spatial_bbox_roundtrip :
    (∀ (j : Json) (l : List Prediction) (p : Prediction) (b : BBox),
      normalizeResp j = .ok l → p ∈ l → p.bbox = some b →
      (b.x = b.center_x - b.width / 2 ∧ b.y = b.center_y - b.height / 2) ∧
      (b.x + b.width / 2 = b.center_x ∧ b.y + b.height / 2 = b.center_y)) ∧
    normalizeResp c1Payload = .ok [c1Prediction] := by
  constructor
  · intro j l p b h hp hb
    rcases exbind_ok_inv (show (classifyPhase j >>= spatialPhase j) = .ok l from h)
      with ⟨preds, hc, hs⟩
    rcases spatialPhase_cases j preds l hs with heq | ⟨xs, hxs⟩
    · subst heq
      have := (classifyPhase_pure j _ hc p hp).1
      rw [this] at hb
      simp at hb
    · rcases spatialList_bbox xs l hxs p hp with ⟨b2, hb2, hx, hy⟩
      rw [hb] at hb2
      have hbb := Option.some.inj hb2
      rw [← hbb] at hx hy
      refine ⟨⟨hx, hy⟩, ?_, ?_⟩
      · rw [hx]; ring
      · rw [hy]; ring
  · have h1 : ((100 : ℚ) - 40 / 2) = 80 := by norm_num
    have h2 : ((50 : ℚ) - 20 / 2) = 40 := by norm_num
    show Except.ok [({ className := Json.str "ball",
                       confidence := Json.num (4/5),
                       bbox := some ⟨(100 : ℚ) - 40 / 2, (50 : ℚ) - 20 / 2,
                         40, 20, 100, 50⟩ } : Prediction)] =
      Except.ok [c1Prediction]
    rw [h1, h2]
    rfl

/-- Witness for C1 at the example payload. -/
theorem spatial_bbox_roundtrip_witness :
    (((80 : ℚ) = 100 - 40 / 2 ∧ (40 : ℚ) = 50 - 20 / 2) ∧
      ((80 : ℚ) + 40 / 2 = 100 ∧ (40 : ℚ) + 20 / 2 = 50)) :=
  spatial_bbox_roundtrip.1 c1Payload [c1Prediction] c1Prediction ⟨80, 40, 40, 20, 100, 50⟩
    spatial_bbox_roundtrip.2 (List.mem_singleton_self _) rfl

/-- Witness for C2 on a two-entry dictionary payload. -/
theorem dict_classification_sorted_stable_witness :
    ((classFromDict [("a", Json.obj [("confidence", Json.num 1)]),
        ("b", Json.obj [("confidence", Json.num 2)])]).mergeSort predLE).Pairwise
      (fun a b => confKey b ≤ confKey a) := by
  have h : normalizeResp (Json.obj [("predictions", Json.obj
      [("a", Json.obj [("confidence", Json.num 1)]),
       ("b", Json.obj [("confidence", Json.num 2)])])]) =
      .ok ((classFromDict [("a", Json.obj [("confidence", Json.num 1)]),
        ("b", Json.obj [("confidence", Json.num 2)])]).mergeSort predLE) := by
    rw [normalizeResp_dict]
    unfold sortPreds
    rw [if_neg (by decide)]
  exact (dict_classification_sorted_stable _ _ h).1

/-- C7: each normalized list is homogeneous: either every prediction
carries a bounding box (the spatial block fired) or none carries any
spatial field (a classification branch fired); the branch structure never
mixes the two in one response. -/
theorem normalizeResp_homogeneous (j : Json) (l : List Prediction)
    (h : normalizeResp j = .ok l) :
    (∀ p ∈ l, p.bbox.isSome = true) ∨ (∀ p ∈ l, isPureClass p) := by
  rcases exbind_ok_inv (show (classifyPhase j >>= spatialPhase j) = .ok l from h)
    with ⟨preds, hc, hs⟩
  rcases spatialPhase_cases j preds l hs with heq | ⟨xs, hxs⟩
  · subst heq
    exact Or.inr (classifyPhase_pure j _ hc)
  · left
    intro p hp
    rcases spatialList_bbox xs l hxs p hp with ⟨b, hb, _⟩
    rw [hb]; rfl

/-- Witness for C7 on a simple top-format payload. -/
theorem normalizeResp_homogeneous_witness :
    (∀ p ∈ [classPredOfTop (Json.str "cat") (Json.num (92/100))], p.bbox.isSome = true) ∨
    (∀ p ∈ [classPredOfTop (Json.str "cat") (Json.num (92/100))], isPureClass p) :=
  normalizeResp_homogeneous
    (Json.obj [("top", Json.str "cat"), ("confidence", Json.num (92/100))]) _ rfl

/-- C6 (amended): an object payload carrying neither a top key nor a class
key, and whose predictions value (when present) is neither a dictionary nor
a list — the empty object included — normalizes to the empty prediction
sequence without raising. -/
theorem unrecognized_object_empty :
    (∀ fields : List (String × Json), hasKey fields "top" = false →
      hasKey fields "class" = false →
      (match jlookup fields "predictions" with
       | some (Json.obj _) => False
       | some (Json.arr _) => False
       | _ => True) →
      normalizeResp (Json.obj fields) = .ok []) ∧
    normalizeResp (Json.obj []) = .ok [] := by
  constructor
  · intro fields htop hcls hpred
    have hct : ¬ hasKey fields "top" = true := by simp [htop]
    have hcc : ¬ hasKey fields "class" = true := by simp [hcls]
    show (classifyPhase (Json.obj fields) >>= spatialPhase (Json.obj fields)) = .ok []
    by_cases hkp : hasKey fields "predictions" = true
    · rcases hasKey_jlookup fields "predictions" hkp with ⟨v, hv⟩
      have hclassify : classifyPhase (Json.obj fields) = .ok [] := by
        simp only [classifyPhase]
        rw [if_neg hct, if_pos hkp, hv]
        rw [hv] at hpred
        cases v with
        | obj d => exact (hpred : False).elim
        | arr xs => exact (hpred : False).elim
        | null => rfl
        | bool b => rfl
        | num q => rfl
        | str s => rfl
      have hspatial : spatialPhase (Json.obj fields) [] = .ok [] := by
        simp only [spatialPhase]
        rw [if_pos hkp, hv]
        rw [hv] at hpred
        cases v with
        | obj d => exact (hpred : False).elim
        | arr xs => exact (hpred : False).elim
        | null => rfl
        | bool b => rfl
        | num q => rfl
        | str s => rfl
      rw [hclassify, exbind_ok]
      exact hspatial
    · have hclassify : classifyPhase (Json.obj fields) = .ok [] := by
        simp only [classifyPhase]
        rw [if_neg hct, if_neg hkp, if_neg hcc]
      have hspatial : spatialPhase (Json.obj fields) [] = .ok [] := by
        simp only [spatialPhase]
        rw [if_neg hkp]
      rw [hclassify, exbind_ok]
      exact hspatial
  · rfl

/-- Witness for C6 on an object with an unrelated key. -/
theorem unrecognized_object_empty_witness :
    normalizeResp (Json.obj [("foo", Json.num 1)]) = .ok [] :=
  unrecognized_object_empty.1 [("foo", Json.num 1)] rfl rfl trivial

/-- Counterexample to C6 as stated: an object with only a class key matches
none of the five recognized shapes yet produces a non-empty prediction
list (a sixth fallback shape of the code), and a bare numeric payload makes
the normalizer raise a type error instead of returning an empty sequence. -/
theorem unrecognized_payload_counterexample :
    normalizeResp (Json.obj [("class", Json.str "x")]) =
      .ok [{ className := Json.str "x", confidence := Json.num 0,
             score := some (Json.num 0) }] ∧
    normalizeResp (Json.num 3) = .error "TypeError: argument is not iterable" :=
  ⟨rfl, rfl⟩

/-- C3 (amended): every built query has at most five terms, and the input
soccer ball detection yields exactly soccer ball model object detection;
on the fallback path (keywords lacking a full task phrase or the model
qualifier) the query always contains the model qualifier and, when neither
suppressing phrase is present and a segmentation hint is, the single
appended phrase is instance segmentation (the fallback priority is
segmentation over detection over classification; no keypoint phrase
exists, and the pass-through branch may truncate both the qualifier and
the phrase away). -/
theorem search_query_construction :
    (∀ kw : List Char, (splitP pySpace (buildSearchKeywords kw)).length ≤ 5) ∧
    buildSearchKeywords "soccer ball detection".toList =
      "soccer ball model object detection".toList ∧
    (∀ kw : List Char, (hasTaskPhrase (lowerl kw) && isSubl kwModel (lowerl kw)) = false →
      ∃ w ∈ splitP pySpace (buildSearchKeywords kw), lowerl w = kwModel) ∧
    (∀ kw : List Char, (hasTaskPhrase (lowerl kw) && isSubl kwModel (lowerl kw)) = false →
      isSubl kwInstSeg (lowerl kw) = false → isSubl kwKeyDet (lowerl kw) = false →
      (isSubl "segment".toList (lowerl kw) || isSubl "segmentation".toList (lowerl kw)) = true →
      ∃ pre, splitP pySpace (buildSearchKeywords kw) =
        pre ++ ["instance".toList, "segmentation".toList]) :=
  ⟨buildSearchKeywords_word_bound, by decide, fallback_model_present, fallback_seg_phrase⟩

/-- Witness for C3: the fallback path at two concrete inputs. -/
theorem search_query_construction_witness :
    (∃ w ∈ splitP pySpace (buildSearchKeywords "soccer ball detection".toList),
      lowerl w = kwModel) ∧
    (∃ pre, splitP pySpace (buildSearchKeywords "keypoint segmentation".toList) =
      pre ++ ["instance".toList, "segmentation".toList]) :=
  ⟨search_query_construction.2.2.1 _ (by decide),
   search_query_construction.2.2.2 _ (by decide) (by decide) (by decide) (by decide)⟩

/-- Counterexample to C3 as stated: with both the qualifier and a full
task phrase beyond the fifth word, the pass-through branch truncates the
query to the first five words, so the result contains neither the model
qualifier nor any task-type phrase. -/
theorem search_query_construction_counterexample :
    buildSearchKeywords "a b c d e model object detection".toList = "a b c d e".toList ∧
    isSubl kwModel (lowerl (buildSearchKeywords "a b c d e model object detection".toList)) =
      false ∧
    hasTaskPhrase (lowerl (buildSearchKeywords "a b c d e model object detection".toList)) =
      false :=
  ⟨by decide, by decide, by decide⟩

theorem retryLoop_succ {α : Type} (a : Nat → Option α) (i n : Nat) :
    retryLoop a i (n + 1) =
      match a i with
      | some d => (some d, 1, [])
      | none =>
        if n = 0 then (none, 1, [])
        else ((retryLoop a (i + 1) n).1, (retryLoop a (i + 1) n).2.1 + 1,
          RETRY_WAIT :: (retryLoop a (i + 1) n).2.2) := rfl

/-- C4: a page that fails the first two attempts and succeeds on the third
yields a record after exactly three navigation attempts (one fresh page per
attempt) with the fixed wait between attempts, and a page that fails all
three attempts yields none after exactly three attempts, with no exception
escaping (the model is a total function). -/
theorem open_model_with_retry_spec {α : Type} :
    (∀ (a : Nat → Option α) (d : α), a 1 = none → a 2 = none → a 3 = some d →
      open_model_with_retry a = (some d, 3, [RETRY_WAIT, RETRY_WAIT])) ∧
    (∀ a : Nat → Option α, a 1 = none → a 2 = none → a 3 = none →
      open_model_with_retry a = (none, 3, [RETRY_WAIT, RETRY_WAIT])) := by
  constructor
  · intro a d h1 h2 h3
    have e1 : retryLoop a 3 1 = (some d, 1, []) := by
      have hk := retryLoop_succ a 3 0
      rw [h3] at hk
      simpa using hk
    have e2 : retryLoop a 2 2 = (some d, 2, [RETRY_WAIT]) := by
      have hk := retryLoop_succ a 2 1
      rw [h2] at hk
      simp only [] at hk
      rw [if_neg (by omega)] at hk
      rw [e1] at hk
      simpa using hk
    have e3 : retryLoop a 1 3 = (some d, 3, [RETRY_WAIT, RETRY_WAIT]) := by
      have hk := retryLoop_succ a 1 2
      rw [h1] at hk
      simp only [] at hk
      rw [if_neg (by omega)] at hk
      rw [e2] at hk
      simpa using hk
    exact e3
  · intro a h1 h2 h3
    have e1 : retryLoop a 3 1 = (none, 1, []) := by
      have hk := retryLoop_succ a 3 0
      rw [h3] at hk
      simpa using hk
    have e2 : retryLoop a 2 2 = (none, 2, [RETRY_WAIT]) := by
      have hk := retryLoop_succ a 2 1
      rw [h2] at hk
      simp only [] at hk
      rw [if_neg (by omega)] at hk
      rw [e1] at hk
      simpa using hk
    have e3 : retryLoop a 1 3 = (none, 3, [RETRY_WAIT, RETRY_WAIT]) := by
      have hk := retryLoop_succ a 1 2
      rw [h1] at hk
      simp only [] at hk
      rw [if_neg (by omega)] at hk
      rw [e2] at hk
      simpa using hk
    exact e3

/-- Witness for C4 with concrete attempt oracles. -/
theorem open_model_with_retry_spec_witness :
    open_model_with_retry (fun n => if n = 3 then some 7 else none) =
      (some 7, 3, [RETRY_WAIT, RETRY_WAIT]) ∧
    open_model_with_retry (fun _ => (none : Option Nat)) =
      (none, 3, [RETRY_WAIT, RETRY_WAIT]) :=
  ⟨(open_model_with_retry_spec (α := Nat)).1 _ 7 rfl rfl rfl,
   (open_model_with_retry_spec (α := Nat)).2 _ rfl rfl rfl⟩

/-- C5: the link collection derives a canonical two-segment path per href,
deduplicates by that path in first-seen order (the output has no duplicate
project URLs), and the whole operation is idempotent: applying it to its
own output reproduces that output exactly. -/
theorem dedupLinks_idempotent (L : List (List Char)) :
    dedupLinks (dedupLinks L) = dedupLinks L ∧ (dedupLinks L).Nodup := by
  rcases dedupAux_spec L [] with ⟨ps, heq, hnd, hprops⟩
  constructor
  · show dedupAux [] (dedupLinks L) = dedupLinks L
    rw [show dedupLinks L = dedupAux [] L from rfl, heq]
    exact dedupAux_fixed ps [] hnd (fun p hp => ⟨(hprops p hp).1, by simp⟩)
  · rw [show dedupLinks L = dedupAux [] L from rfl, heq]
    exact List.Nodup.map (fun a b hab => List.append_cancel_left hab) hnd

/-- C8: when a count declaration CLASSES (N) is found, the extractor scans
the fixed 500-character window after it, keeps only identifier-like lowercase
tokens outside the interface stoplist, deduplicates them in first-seen
order, returns at most min(N, 10) of them, and reports the declared digit
string unchanged even when it exceeds the number of recovered names. -/
theorem classes_extraction_spec (text ds rest : List Char)
    (h : findClassesCount text = some (ds, rest)) :
    extractClasses text =
      ((filteredDedup [] (findToks (rest.take 500))).take (min (natOfDigits ds) 10), ds) ∧
    (extractClasses text).1.length ≤ min (natOfDigits ds) 10 ∧
    (extractClasses text).2 = ds ∧
    (extractClasses text).1.Nodup ∧
    ∀ cls ∈ (extractClasses text).1,
      1 < cls.length ∧ cls ∉ uiNoise ∧ isLowerAZ (cls.headD ' ') = true ∧
        ∀ c ∈ cls, tokChar c = true := by
  have hmain : extractClasses text =
      ((filteredDedup [] (findToks (rest.take 500))).take (min (natOfDigits ds) 10), ds) := by
    simp only [extractClasses, h]
    by_cases hn : natOfDigits ds = 0
    · rw [hn]
      simp
    · congr 1
      rw [classesLoop_take (findToks (rest.take 500)) [] (natOfDigits ds)
        (by simp only [List.length_nil]; omega)]
      rw [List.take_take]
      congr 1
      omega
  refine ⟨hmain, ?_, ?_, ?_, ?_⟩
  · rw [hmain]
    exact List.length_take_le _ _
  · rw [hmain]
  · rw [hmain]
    exact (List.take_sublist _ _).nodup (filteredDedup_nodup _ [] List.nodup_nil)
  · rw [hmain]
    intro cls hcls
    have hfd : cls ∈ filteredDedup [] (findToks (rest.take 500)) := List.mem_of_mem_take hcls
    rcases filteredDedup_mem _ [] cls hfd with hmem | ⟨hmem, hlen, hnoise⟩
    · simp at hmem
    · have hshape := findToks_shape _ cls hmem
      exact ⟨hlen, hnoise, hshape.2.1, hshape.2.2⟩

/-- Witness for C8 at a concrete overview text. -/
theorem classes_extraction_spec_witness :
    (extractClasses "CLASSES (2) cat dog fish".toList).2 = "2".toList :=
  (classes_extraction_spec "CLASSES (2) cat dog fish".toList "2".toList
    " cat dog fish".toList rfl).2.2.1

/-- C9: the model identifier is derived from the URL alone as the last two
slash-separated pieces joined with a slash whenever the URL contains a
slash, is the unknown sentinel otherwise, and the assembled record takes
this identifier from the URL independently of every other extracted
field. -/
theorem model_identifier_spec :
    (∀ url : List Char, '/' ∈ url →
      modelIdOfUrl url =
        (splitKeep '/' url).getD ((splitKeep '/' url).length - 2) [] ++
          '/' :: (splitKeep '/' url).getD ((splitKeep '/' url).length - 1) []) ∧
    (∀ url : List Char, '/' ∉ url → modelIdOfUrl url = NAl) ∧
    (∀ (base_url title author : List Char) (api : Option (List Char))
        (classes : List (List Char)) (cc : List Char),
      (assembleRecord base_url title author api classes cc).model_identifier =
        modelIdOfUrl base_url) :=
  ⟨modelIdOfUrl_with_slash, modelIdOfUrl_no_slash, fun _ _ _ _ _ _ => rfl⟩

/-- Witness for C9 at a concrete project URL. -/
theorem model_identifier_spec_witness :
    modelIdOfUrl "https://universe.roboflow.com/ws/proj".toList =
      (splitKeep '/' "https://universe.roboflow.com/ws/proj".toList).getD
        ((splitKeep '/' "https://universe.roboflow.com/ws/proj".toList).length - 2) [] ++
        '/' :: (splitKeep '/' "https://universe.roboflow.com/ws/proj".toList).getD
          ((splitKeep '/' "https://universe.roboflow.com/ws/proj".toList).length - 1) [] :=
  model_identifier_spec.1 _ (by decide)

theorem finishRequest_eq (mid etype : List Char) (http : HttpOutcome) :
    (∃ e, finishRequest mid etype http = errResult e mid) ∨
    (∃ preds, finishRequest mid etype http =
      { success := true, error := none, predictions := some preds,
        model_id := mid, endpoint_type := some etype }) := by
  cases http with
  | raise e => exact Or.inl ⟨e, rfl⟩
  | resp status body =>
    by_cases hs : status ≠ 200
    · exact Or.inl ⟨"API request failed", by simp [finishRequest, hs]⟩
    · cases body with
      | error e => exact Or.inl ⟨e, by simp [finishRequest, hs]⟩
      | ok json =>
        cases hn : normalizeResp json with
        | error e => exact Or.inl ⟨e, by simp [finishRequest, hs, hn]⟩
        | ok preds => exact Or.inr ⟨preds, by simp [finishRequest, hs, hn]⟩

theorem finishRequest_shape (mid etype : List Char) (http : HttpOutcome) :
    ((finishRequest mid etype http).success = false →
      ∃ e, (finishRequest mid etype http).error = some e) ∧
    ((finishRequest mid etype http).success = true →
      (finishRequest mid etype http).error = none ∧
      ∃ ps, (finishRequest mid etype http).predictions = some ps) := by
  rcases finishRequest_eq mid etype http with ⟨e, he⟩ | ⟨preds, hp⟩
  · rw [he]
    exact ⟨fun _ => ⟨e, rfl⟩, fun h => absurd h (by simp [errResult])⟩
  · rw [hp]
    exact ⟨fun h => absurd h (by simp), fun _ => ⟨rfl, preds, rfl⟩⟩

/-- C10: run_inference is a total function whose result always carries the
success flag; a false flag always comes with an error message, a true flag
with a prediction list and no error, and a model URL naming neither
endpoint family produces the fixed error with the unknown model id. -/
theorem run_inference_total :
    (∀ (modelUrl apiKey imageB64 : List Char) (params : Option InferParams)
        (http : HttpOutcome),
      ((run_inference modelUrl apiKey imageB64 params http).success = false →
        ∃ e, (run_inference modelUrl apiKey imageB64 params http).error = some e) ∧
      ((run_inference modelUrl apiKey imageB64 params http).success = true →
        (run_inference modelUrl apiKey imageB64 params http).error = none ∧
        ∃ ps, (run_inference modelUrl apiKey imageB64 params http).predictions = some ps)) ∧
    (∀ (modelUrl apiKey imageB64 : List Char) (params : Option InferParams)
        (http : HttpOutcome),
      isSubl "serverless.roboflow.com".toList modelUrl = false →
      isSubl "detect.roboflow.com".toList modelUrl = false →
      run_inference modelUrl apiKey imageB64 params http =
        errResult "Please provide a serverless.roboflow.com or detect.roboflow.com URL"
          UNKNOWNl) := by
  constructor
  · intro u k i pr http
    unfold run_inference
    by_cases h1 : isSubl "serverless.roboflow.com".toList u = true
    · rw [if_pos h1]
      cases parseServerless u with
      | error e => exact ⟨fun _ => ⟨e, rfl⟩, fun h => by simp [errResult] at h⟩
      | ok nv =>
        rcases nv with ⟨name, version⟩
        cases processImage i with
        | error e => exact ⟨fun _ => ⟨e, rfl⟩, fun h => by simp [errResult] at h⟩
        | ok img => exact finishRequest_shape _ _ http
    · rw [if_neg h1]
      by_cases h2 : isSubl "detect.roboflow.com".toList u = true
      · rw [if_pos h2]
        cases parseDetect u with
        | error e => exact ⟨fun _ => ⟨e, rfl⟩, fun h => by simp [errResult] at h⟩
        | ok nv =>
          rcases nv with ⟨name, version⟩
          cases processImage i with
          | error e => exact ⟨fun _ => ⟨e, rfl⟩, fun h => by simp [errResult] at h⟩
          | ok img => exact finishRequest_shape _ _ http
      · rw [if_neg h2]
        exact ⟨fun _ => ⟨_, rfl⟩, fun h => by simp [errResult] at h⟩
  · intro u k i pr http h1 h2
    unfold run_inference
    rw [if_neg (by simp only [h1]; simp), if_neg (by simp only [h2]; simp)]

/-- Witness for C10 at a URL naming neither endpoint. -/
theorem run_inference_total_witness :
    run_inference "x".toList "k".toList "img".toList none (HttpOutcome.raise "boom") =
      errResult "Please provide a serverless.roboflow.com or detect.roboflow.com URL"
        UNKNOWNl :=
  run_inference_total.2 _ _ _ _ _ (by decide) (by decide)

